import Mathlib

/-!
Shallow embedding of the NSGA-II keyboard layout optimizer
(`pareto_optimizer.py`) and proofs about its specification.

Python floats are modelled as rationals (`ℚ`), `float('inf')` for crowding
distances as `⊤ : WithTop ℚ`, Python dicts as insertion-ordered association
lists, and exceptions (`ZeroDivisionError`, `IndexError`) as `Except`/`Option`
results.  Random choices (shuffles, sampled swap indices) are passed in as
explicit parameters, and theorems quantify over them.
-/

namespace Pareto

/-- A key position: `char -> {row, col, finger}` dictionaries in the source. -/
structure Pos where
  row : ℤ
  col : ℤ
  finger : ℤ
deriving DecidableEq, Repr

/-- The `LayoutMetrics` dataclass: metrics for a single language. -/
structure LayoutMetrics where
  sfb : ℚ
  scissors : ℚ
  lat_stretch : ℚ
  skip_bigrams : ℚ
deriving DecidableEq, Repr

/-- The `Layout` dataclass: a keyboard layout with dual-language metrics.
`positions` is the insertion-ordered dict `char -> Pos`. -/
structure Layout where
  positions : List (Char × Pos)
  english_metrics : LayoutMetrics
  finnish_metrics : LayoutMetrics
  weighted_score : ℚ
  rank : ℕ := 0
  crowding_distance : WithTop ℚ := 0
deriving DecidableEq

/-- The 8-component objective vector `self_obj`/`other_obj` built inside
`Layout.dominates` (English then Finnish, each sfb/scissors/lat/skip). -/
def objList (l : Layout) : List ℚ :=
  [l.english_metrics.sfb, l.english_metrics.scissors,
   l.english_metrics.lat_stretch, l.english_metrics.skip_bigrams,
   l.finnish_metrics.sfb, l.finnish_metrics.scissors,
   l.finnish_metrics.lat_stretch, l.finnish_metrics.skip_bigrams]

/-- `Layout.dominates`: better-or-equal in all objectives and strictly better
in at least one. -/
def Layout.dominates (self other : Layout) : Bool :=
  ((objList self).zip (objList other)).all (fun p => decide (p.1 ≤ p.2)) &&
  ((objList self).zip (objList other)).any (fun p => decide (p.1 < p.2))

/-! ## BigramModel: `calculate_bigrams_from_words` -/

/-- Python dict update `m[k] += c` (with `m[k] = 0` inserted first when the
key is new): replaces the first binding in insertion order, else appends. -/
def dictBump : List ((Char × Char) × ℕ) → Char × Char → ℕ → List ((Char × Char) × ℕ)
  | [], k, c => [(k, c)]
  | (k', v) :: rest, k, c =>
      if k' = k then (k', v + c) :: rest else (k', v) :: dictBump rest k c

/-- The consecutive 2-character windows of `" " + word + " "`.  Every window
of the padded word has length exactly 2, so bigrams are modelled as ordered
character pairs (the `len(bigram) != 2` guard in `calculate_metrics` never
fires on tables built here). -/
def wordBigrams (word : List Char) : List (Char × Char) :=
  let w := ' ' :: (word ++ [' '])
  w.zip w.tail

/-- `calculate_bigrams_from_words`: bigram table (in insertion order) and
`total_length`, accumulated over the word list. -/
def calculate_bigrams_from_words (words : List (List Char × ℕ)) :
    List ((Char × Char) × ℕ) × ℕ :=
  words.foldl
    (fun acc wc =>
      ((wordBigrams wc.1).foldl (fun m bg => dictBump m bg wc.2) acc.1,
       acc.2 + (wc.1.length + 1) * wc.2))
    ([], 0)

/-! ## MetricEvaluator: `calculate_metrics` -/

/-- The four running accumulators of `calculate_metrics`. -/
structure Accum where
  sfb : ℚ
  scissors : ℚ
  lat_str : ℚ
  wide_scissors : ℚ
deriving DecidableEq, Repr

/-- One iteration of the bigram loop of `calculate_metrics`. -/
def metricStep (layout : List (Char × Pos)) (acc : Accum)
    (entry : (Char × Char) × ℕ) : Accum :=
  let c : ℚ := entry.2
  match layout.lookup entry.1.1, layout.lookup entry.1.2 with
  | some pos1, some pos2 =>
      if pos1.finger = pos2.finger ∧ entry.1.1 ≠ entry.1.2 then
        { acc with sfb := acc.sfb + c }
      else if pos1.finger ≠ pos2.finger then
        if pos1.col ≤ 5 ∧ pos2.col ≤ 5 then
          if pos1.row ≤ 2 ∧ pos2.row ≤ 2 then
            let acc1 :=
              if |pos1.row - pos2.row| = 2 then
                if |pos1.col - pos2.col| = 1 then
                  { acc with scissors := acc.scissors + c }
                else
                  { acc with wide_scissors := acc.wide_scissors + c }
              else acc
            let acc2 :=
              if (pos1.col = 5 ∧ pos2.col = 3) ∨ (pos1.col = 3 ∧ pos2.col = 5) then
                { acc1 with lat_str := acc1.lat_str + c }
              else acc1
            if (pos1.col = 5 ∧ pos2.col = 2) ∨ (pos1.col = 2 ∧ pos2.col = 5) then
              { acc2 with lat_str := acc2.lat_str + c / 2 }
            else acc2
          else acc
        else if 6 ≤ pos1.col ∧ 6 ≤ pos2.col then
          if pos1.row ≤ 2 ∧ pos2.row ≤ 2 then
            let acc1 :=
              if |pos1.row - pos2.row| = 2 then
                if |pos1.col - pos2.col| = 1 then
                  { acc with scissors := acc.scissors + c }
                else
                  { acc with wide_scissors := acc.wide_scissors + c }
              else acc
            let acc2 :=
              if (pos1.col = 6 ∧ pos2.col = 8) ∨ (pos1.col = 8 ∧ pos2.col = 6) then
                { acc1 with lat_str := acc1.lat_str + c }
              else acc1
            if (pos1.col = 6 ∧ pos2.col = 9) ∨ (pos1.col = 9 ∧ pos2.col = 6) then
              { acc2 with lat_str := acc2.lat_str + c / 2 }
            else acc2
          else acc
        else acc
      else acc
  | _, _ => acc

/-- The accumulation phase of `calculate_metrics` (the whole bigram loop). -/
def metricAccum (layout : List (Char × Pos))
    (bigrams : List ((Char × Char) × ℕ)) : Accum :=
  bigrams.foldl (metricStep layout) ⟨0, 0, 0, 0⟩

/-- Failure modes of the embedded arithmetic: Python raises
`ZeroDivisionError` at the percentage step when `total_length == 0`. -/
inductive MetricError where
  | divByZero
deriving DecidableEq, Repr

/-- `calculate_metrics`: runs the accumulation loop, then converts the
accumulators to percentages; the division by `total_length = 0` is the
uncaught `ZeroDivisionError` of the source. -/
def calculate_metrics (layout : List (Char × Pos))
    (bigrams : List ((Char × Char) × ℕ)) (total_length : ℕ) :
    Except MetricError LayoutMetrics :=
  let acc := metricAccum layout bigrams
  if total_length = 0 then .error .divByZero
  else
    .ok { sfb := acc.sfb * 100 / total_length,
          scissors := acc.scissors * 100 / total_length,
          lat_stretch := acc.lat_str * 100 / total_length,
          skip_bigrams := acc.scissors * 100 / total_length }

/-- `evaluate_layout`: metrics for both languages plus the weighted score
`0.8 * english_score + 0.2 * finnish_score`, where each language score sums
sfb, scissors and lat_stretch only. -/
def evaluate_layout (layout_positions : List (Char × Pos))
    (engBigrams : List ((Char × Char) × ℕ)) (engTotal : ℕ)
    (finBigrams : List ((Char × Char) × ℕ)) (finTotal : ℕ) :
    Except MetricError Layout := do
  let em ← calculate_metrics layout_positions engBigrams engTotal
  let fm ← calculate_metrics layout_positions finBigrams finTotal
  let english_score := em.sfb + em.scissors + em.lat_stretch
  let finnish_score := fm.sfb + fm.scissors + fm.lat_stretch
  return { positions := layout_positions,
           english_metrics := em,
           finnish_metrics := fm,
           weighted_score := (8 : ℚ) / 10 * english_score + 2 / 10 * finnish_score }

/-! ## Genome: fixed structure, random initialisation, swap mutation -/

/-- `self.fixed_letters`: the anchor letters that cannot move. -/
def fixed_letters : List Char :=
  ['n', 'r', 's', 't', 'h', 'e', 'a', 'i', 'u', 'o', 'y']

/-- `self.base_layout`: the fixed positions (including the space key). -/
def base_layout : List (Char × Pos) :=
  [('n', ⟨1, 1, 1⟩), ('r', ⟨1, 2, 2⟩), ('s', ⟨1, 3, 3⟩), ('t', ⟨1, 4, 4⟩),
   ('h', ⟨1, 7, 7⟩), ('e', ⟨1, 8, 8⟩), ('a', ⟨1, 9, 9⟩), ('i', ⟨1, 10, 10⟩),
   ('u', ⟨0, 8, 8⟩), ('o', ⟨0, 9, 9⟩), ('y', ⟨0, 10, 10⟩), (' ', ⟨3, 6, 6⟩)]

/-- `self.moveable_positions`: the 24 slots filled by the optimisation. -/
def moveable_positions : List Pos :=
  [⟨0, 1, 1⟩, ⟨0, 2, 2⟩, ⟨0, 3, 3⟩, ⟨0, 4, 4⟩, ⟨0, 5, 4⟩, ⟨0, 6, 7⟩,
   ⟨0, 7, 7⟩, ⟨0, 11, 10⟩, ⟨1, 0, 1⟩, ⟨1, 5, 4⟩, ⟨1, 6, 7⟩, ⟨1, 11, 10⟩,
   ⟨2, 0, 1⟩, ⟨2, 1, 1⟩, ⟨2, 2, 2⟩, ⟨2, 3, 3⟩, ⟨2, 4, 4⟩, ⟨2, 5, 4⟩,
   ⟨2, 6, 7⟩, ⟨2, 7, 7⟩, ⟨2, 8, 8⟩, ⟨2, 9, 9⟩, ⟨2, 10, 10⟩, ⟨2, 11, 10⟩]

/-- `self.moveable_letters`: the 24 characters the optimiser may move
(the apostrophe and backslash keys are written via their code points). -/
def moveable_letters : List Char :=
  ['q', 'l', 'c', 'm', 'k', Char.ofNat 39, 'f', 'ö', '-', 'w', 'p', 'ä',
   Char.ofNat 92, 'j', 'x', 'z', 'g', 'v', 'b', 'd', ';', ',', '.', '/']

/-- Python dict assignment `layout[k] = v` on an insertion-ordered
association list: replace the existing binding in place, else append. -/
def dictSet (m : List (Char × Pos)) (k : Char) (v : Pos) : List (Char × Pos) :=
  match m with
  | [] => [(k, v)]
  | (k', v') :: rest => if k' = k then (k, v) :: rest else (k', v') :: dictSet rest k v

/-- `create_random_layout`, parameterised by the two shuffles: starts from a
copy of `base_layout` and assigns `shuffled_letters[i] -> shuffled_positions[i]`. -/
def create_random_layout (shuffled_letters : List Char)
    (shuffled_positions : List Pos) : List (Char × Pos) :=
  (shuffled_letters.zip shuffled_positions).foldl
    (fun lay p => dictSet lay p.1 p.2) base_layout

/-- The swap-mutation core of `mutate_layout`, parameterised by the two
sampled indices into the list of moveable letters present in the layout.
`random.sample` always yields two distinct in-range indices; other index
choices leave the layout unchanged, like the `len < 2` guard. -/
def mutate_positions (positions : List (Char × Pos)) (i j : ℕ) : List (Char × Pos) :=
  let moveable_chars := moveable_letters.filter (fun c => (positions.lookup c).isSome)
  if 2 ≤ moveable_chars.length ∧ i ≠ j then
    match moveable_chars.get? i, moveable_chars.get? j with
    | some char1, some char2 =>
        match positions.lookup char1, positions.lookup char2 with
        | some p1, some p2 => dictSet (dictSet positions char1 p2) char2 p1
        | _, _ => positions
    | _, _ => positions
  else positions

/-- The full character set: anchor characters (with space) plus moveable. -/
def full_chars : List Char := base_layout.map Prod.fst ++ moveable_letters

/-- The full slot set: anchor slots plus moveable slots. -/
def full_slots : List Pos := base_layout.map Prod.snd ++ moveable_positions

/-- Permutation validity plus anchor invariance: the layout dict is a
bijection between the full character set and the full slot set and every
anchor binding of `base_layout` is still looked up unchanged. -/
def LayoutInv (positions : List (Char × Pos)) : Prop :=
  (positions.map Prod.fst).Perm full_chars ∧
  (positions.map Prod.snd).Perm full_slots ∧
  ∀ e ∈ base_layout, positions.lookup e.1 = some e.2

/-! ## DominationRanker: `fast_non_dominated_sort` (index-level embedding) -/

/-- Placeholder layout used only to give list indexing a default value;
every indexed access below is in range. -/
def defaultLayout : Layout :=
  { positions := [], english_metrics := ⟨0, 0, 0, 0⟩,
    finnish_metrics := ⟨0, 0, 0, 0⟩, weighted_score := 0 }

/-- `population[i].dominates(population[j])` at the index level. -/
def domB (pop : List Layout) (i j : ℕ) : Bool :=
  (pop.getD i defaultLayout).dominates (pop.getD j defaultLayout)

/-- `layout_i.dominated_solutions`: the indices j dominated by index i, in
population order. -/
def dominated_solutions (pop : List Layout) (i : ℕ) : List ℕ :=
  (List.range pop.length).filter (fun j => domB pop i j)

/-- The initial `domination_count` values (as Python ints), one per index. -/
def init_counts (pop : List Layout) : List ℤ :=
  (List.range pop.length).map
    (fun i => (((List.range pop.length).filter (fun j => domB pop j i)).length : ℤ))

/-- One decrement step of the front-peeling loop: decrement
`domination_count[j]` and append j to the next front when it reaches 0. -/
def decStep (st : List ℤ × List ℕ) (j : ℕ) : List ℤ × List ℕ :=
  let c := st.1.set j (st.1.getD j 0 - 1)
  if c.getD j 0 = 0 then (c, st.2 ++ [j]) else (c, st.2)

/-- Peeling one front: for each member (in order) decrement the counts of
everything it dominates, collecting the indices that reach count 0. -/
def processFront (pop : List Layout) (counts : List ℤ) (front : List ℕ) :
    List ℤ × List ℕ :=
  front.foldl (fun st i => (dominated_solutions pop i).foldl decStep st) (counts, [])

/-- The `while len(fronts[front_index]) > 0` loop, fuelled; the trailing
empty front is never collected (mirroring `fronts[:-1]`). -/
def sortLoop (pop : List Layout) : ℕ → List ℤ → List ℕ → List (List ℕ)
  | 0, _, _ => []
  | fuel + 1, counts, front =>
      if front.isEmpty then []
      else
        let st := processFront pop counts front
        front :: sortLoop pop fuel st.1 st.2

/-- `fast_non_dominated_sort`, returning fronts of population indices. -/
def fast_non_dominated_sort (pop : List Layout) : List (List ℕ) :=
  let counts := init_counts pop
  let front0 := (List.range pop.length).filter (fun i => counts.getD i 0 = 0)
  sortLoop pop (pop.length + 1) counts front0

/-- The number of dominators of index `j` that are not yet assigned to a
front (`A` is the set of already-assigned indices). -/
def residual (pop : List Layout) (A : Finset ℕ) (j : ℕ) : ℕ :=
  ((List.range pop.length).filter
    (fun i => domB pop i j && decide (i ∉ A))).length

/-- The loop invariant of the front-peeling phase: `A` holds the indices of
all previously emitted fronts, `front` is the front about to be emitted, and
`counts` holds each unassigned index's count of dominators outside `A`. -/
def SortInv (pop : List Layout) (A : Finset ℕ) (counts : List ℤ)
    (front : List ℕ) : Prop :=
  counts.length = pop.length ∧
  front.Nodup ∧
  (∀ j ∈ front, j < pop.length) ∧
  (∀ j ∈ front, j ∉ A) ∧
  (A ⊆ Finset.range pop.length) ∧
  (∀ j ∈ front, ∀ i < pop.length, domB pop i j = true → i ∈ A) ∧
  (∀ j ∈ A, ∀ i < pop.length, domB pop i j = true → i ∈ A) ∧
  (∀ j < pop.length, j ∉ A → j ∉ front →
    counts.getD j 0 = (residual pop A j : ℤ)) ∧
  (∀ j < pop.length, j ∉ A → j ∉ front → 1 ≤ residual pop A j)

/-! ## CrowdingEstimator: `calculate_crowding_distance` -/

/-- Python `min` over a nonempty list (callers guarantee nonemptiness). -/
def listMin : List ℚ → ℚ
  | [] => 0
  | x :: xs => xs.foldl min x

/-- Python `max` over a nonempty list (callers guarantee nonemptiness). -/
def listMax : List ℚ → ℚ
  | [] => 0
  | x :: xs => xs.foldl max x

/-- The list of 8 objective accessors built inside
`calculate_crowding_distance`. -/
def objectives : List (Layout → ℚ) :=
  [fun l => l.english_metrics.sfb,
   fun l => l.english_metrics.scissors,
   fun l => l.english_metrics.lat_stretch,
   fun l => l.english_metrics.skip_bigrams,
   fun l => l.finnish_metrics.sfb,
   fun l => l.finnish_metrics.scissors,
   fun l => l.finnish_metrics.lat_stretch,
   fun l => l.finnish_metrics.skip_bigrams]

/-- One objective pass of `calculate_crowding_distance`: stable-sort the
front by the objective (Python `list.sort`), set the two boundary members'
distances to infinity, then, when the objective range is positive, add the
normalised neighbour gap to every interior member's distance. -/
def crowding_step (front : List Layout) (obj : Layout → ℚ) : List Layout :=
  let sorted := List.insertionSort (fun a b => obj a ≤ obj b) front
  let marked := sorted.mapIdx
    (fun i l => if i = 0 ∨ i = sorted.length - 1 then
        { l with crowding_distance := ⊤ } else l)
  let obj_values := sorted.map obj
  let obj_range := listMax obj_values - listMin obj_values
  if 0 < obj_range then
    marked.mapIdx
      (fun i l => if 1 ≤ i ∧ i < marked.length - 1 then
          { l with crowding_distance := l.crowding_distance +
              (((obj_values.getD (i + 1) 0 - obj_values.getD (i - 1) 0) / obj_range : ℚ) : WithTop ℚ) }
        else l)
  else marked

/-- `calculate_crowding_distance`, returning the front in its final order
(the Python version mutates the member objects and the list in place). -/
def calculate_crowding_distance (front : List Layout) : List Layout :=
  if front.length ≤ 2 then
    front.map (fun l => { l with crowding_distance := ⊤ })
  else
    objectives.foldl crowding_step
      (front.map (fun l => { l with crowding_distance := 0 }))

/-- All observable fields of a layout except its crowding distance; the
crowding passes only ever rewrite the `crowding_distance` field. -/
def core (l : Layout) :
    List (Char × Pos) × LayoutMetrics × LayoutMetrics × ℚ × ℕ :=
  (l.positions, l.english_metrics, l.finnish_metrics, l.weighted_score, l.rank)

/-! ## EvolutionLoop: the truncation step of `optimize` -/

/-- The `while len(new_population) + len(fronts[front_index]) <= population_size`
loop.  Evaluating the condition indexes `fronts[front_index]`; an
out-of-range index is Python's `IndexError`, modelled as `none`.  On normal
exit it returns the partially filled next generation and the index of the
overflowing front. -/
def truncation_loop (fronts : List (List Layout)) (population_size : ℕ) :
    ℕ → List Layout → ℕ → Option (List Layout × ℕ)
  | 0, _, _ => none
  | fuel + 1, new_population, front_index =>
      match fronts.get? front_index with
      | none => none
      | some f =>
          if new_population.length + f.length ≤ population_size then
            truncation_loop fronts population_size fuel (new_population ++ f) (front_index + 1)
          else some (new_population, front_index)

/-- The truncation step of one generation of `optimize`: append whole fronts
while they fit, then fill the remaining slots from the overflowing front,
sorted by crowding distance descending (Python `sort(..., reverse=True)`,
stable). -/
def select_next_generation (fronts : List (List Layout)) (population_size : ℕ) :
    Option (List Layout) :=
  match truncation_loop fronts population_size (fronts.length + 1) [] 0 with
  | none => none
  | some (new_population, front_index) =>
      if new_population.length < population_size then
        match fronts.get? front_index with
        | none => none
        | some remaining_front =>
            let sorted := List.insertionSort
              (fun a b : Layout => b.crowding_distance ≤ a.crowding_distance)
              remaining_front
            some (new_population ++ sorted.take (population_size - new_population.length))
      else some new_population

/-! ## Heap-level model of `mutate_layout` (aliasing behaviour) -/

/-- A store of position dictionaries; `positions` objects live at integer
addresses and `deepcopy` allocates at the end of the store. -/
abbrev Store : Type := List (List (Char × Pos))

/-- A `Layout` object whose `positions` field is a reference into a `Store`;
the remaining fields mirror the dataclass. -/
structure LayoutRef where
  posAddr : ℕ
  english_metrics : LayoutMetrics
  finnish_metrics : LayoutMetrics
  weighted_score : ℚ
  rank : ℕ := 0
  crowding_distance : WithTop ℚ := 0
deriving DecidableEq

/-- Everything of a layout object that the mutation claim observes: its
positions dictionary (read through the store) and its scoring fields. -/
def readLayout (store : Store) (l : LayoutRef) :
    List (Char × Pos) × LayoutMetrics × LayoutMetrics × ℚ :=
  (store.getD l.posAddr [], l.english_metrics, l.finnish_metrics, l.weighted_score)

/-- `mutate_layout` against an explicit store: `deepcopy` the parent's
positions dict into a fresh cell, perform the swap mutation on the copy, and
evaluate a child layout that references the copy. -/
def mutate_layout_heap (store : Store) (parent : LayoutRef) (i j : ℕ)
    (engBigrams : List ((Char × Char) × ℕ)) (engTotal : ℕ)
    (finBigrams : List ((Char × Char) × ℕ)) (finTotal : ℕ) :
    Store × Except MetricError LayoutRef :=
  let new_positions := mutate_positions (store.getD parent.posAddr []) i j
  let store2 : Store := store ++ [new_positions]
  (store2,
   (evaluate_layout new_positions engBigrams engTotal finBigrams finTotal).map
     (fun lay =>
       { posAddr := store.length,
         english_metrics := lay.english_metrics,
         finnish_metrics := lay.finnish_metrics,
         weighted_score := lay.weighted_score }))

/-! ## Concrete example inputs used by witnesses and counterexamples -/

/-- The bigram table of the corpus `{"ab": 1}` (total_length 3). -/
def bigramsAB : List ((Char × Char) × ℕ) :=
  [((' ', 'a'), 1), (('a', 'b'), 1), (('b', ' '), 1)]

/-- A three-key layout whose `a`/`b` keys form a left-hand scissor:
different fingers, rows 0 and 2, adjacent columns. -/
def layoutScissor : List (Char × Pos) :=
  [(' ', ⟨3, 6, 6⟩), ('a', ⟨0, 1, 1⟩), ('b', ⟨2, 2, 2⟩)]

/-- The layout value produced by evaluating `layoutScissor` on the `{"ab": 1}`
corpus for both languages. -/
def layScissor : Layout :=
  { positions := layoutScissor,
    english_metrics := ⟨0, 100 / 3, 0, 100 / 3⟩,
    finnish_metrics := ⟨0, 100 / 3, 0, 100 / 3⟩,
    weighted_score := 100 / 3 }

/-- A three-key layout whose `a`/`b` keys share finger 1 (an SFB pair). -/
def layoutSfb : List (Char × Pos) :=
  [(' ', ⟨3, 6, 6⟩), ('a', ⟨1, 1, 1⟩), ('b', ⟨2, 2, 1⟩)]

/-- A layout record with prescribed metric values and zero crowding
distance, used to build concrete fronts. -/
def mkLay (e f : LayoutMetrics) : Layout :=
  { positions := [], english_metrics := e, finnish_metrics := f,
    weighted_score := 0 }

/-- A concrete front of three genomes whose first objective (English SFB)
has zero range while the other objectives vary. -/
def frontZeroRange : List Layout :=
  [mkLay ⟨0, 1, 2, 3⟩ ⟨4, 5, 6, 7⟩,
   mkLay ⟨0, 2, 3, 4⟩ ⟨5, 6, 7, 8⟩,
   mkLay ⟨0, 3, 4, 5⟩ ⟨6, 7, 8, 9⟩]

/-- A concrete front of three genomes with pairwise distinct objective
values, used to witness the crowding boundary property. -/
def frontDistinct : List Layout :=
  [mkLay ⟨1, 1, 1, 1⟩ ⟨1, 1, 1, 1⟩,
   mkLay ⟨2, 2, 2, 2⟩ ⟨2, 2, 2, 2⟩,
   mkLay ⟨3, 3, 3, 3⟩ ⟨3, 3, 3, 3⟩]

/-- A one-cell store for the mutation framing witness. -/
def storeW : Store := [[('q', ⟨0, 1, 1⟩), ('l', ⟨0, 2, 2⟩)]]

/-- A parent layout object referencing cell 0 of `storeW`. -/
def parentW : LayoutRef :=
  { posAddr := 0, english_metrics := ⟨1, 2, 3, 4⟩,
    finnish_metrics := ⟨5, 6, 7, 8⟩, weighted_score := 9 }

/-! # Theorems -/

/-! ## Domination basics -/

/-- Unfolded characterisation of `Layout.dominates`. -/
theorem dominates_iff (a b : Layout) :
    a.dominates b = true ↔
      ((a.english_metrics.sfb ≤ b.english_metrics.sfb ∧
        a.english_metrics.scissors ≤ b.english_metrics.scissors ∧
        a.english_metrics.lat_stretch ≤ b.english_metrics.lat_stretch ∧
        a.english_metrics.skip_bigrams ≤ b.english_metrics.skip_bigrams ∧
        a.finnish_metrics.sfb ≤ b.finnish_metrics.sfb ∧
        a.finnish_metrics.scissors ≤ b.finnish_metrics.scissors ∧
        a.finnish_metrics.lat_stretch ≤ b.finnish_metrics.lat_stretch ∧
        a.finnish_metrics.skip_bigrams ≤ b.finnish_metrics.skip_bigrams) ∧
       (a.english_metrics.sfb < b.english_metrics.sfb ∨
        a.english_metrics.scissors < b.english_metrics.scissors ∨
        a.english_metrics.lat_stretch < b.english_metrics.lat_stretch ∨
        a.english_metrics.skip_bigrams < b.english_metrics.skip_bigrams ∨
        a.finnish_metrics.sfb < b.finnish_metrics.sfb ∨
        a.finnish_metrics.scissors < b.finnish_metrics.scissors ∨
        a.finnish_metrics.lat_stretch < b.finnish_metrics.lat_stretch ∨
        a.finnish_metrics.skip_bigrams < b.finnish_metrics.skip_bigrams)) := by
  simp [Layout.dominates, objList, and_assoc]

/-- Domination is irreflexive. -/
theorem dominates_irrefl (a : Layout) : a.dominates a = false := by
  rw [← Bool.not_eq_true]
  intro h
  rcases (dominates_iff a a).1 h with ⟨-, hlt⟩
  rcases hlt with h | h | h | h | h | h | h | h <;> exact lt_irrefl _ h

/-- Domination is transitive. -/
theorem dominates_trans {a b c : Layout}
    (hab : a.dominates b = true) (hbc : b.dominates c = true) :
    a.dominates c = true := by
  rcases (dominates_iff a b).1 hab with ⟨⟨e1, e2, e3, e4, f1, f2, f3, f4⟩, hlt⟩
  rcases (dominates_iff b c).1 hbc with ⟨⟨g1, g2, g3, g4, k1, k2, k3, k4⟩, -⟩
  refine (dominates_iff a c).2 ⟨⟨le_trans e1 g1, le_trans e2 g2, le_trans e3 g3,
    le_trans e4 g4, le_trans f1 k1, le_trans f2 k2, le_trans f3 k3, le_trans f4 k4⟩, ?_⟩
  rcases hlt with h | h | h | h | h | h | h | h
  · exact Or.inl (lt_of_lt_of_le h g1)
  · exact Or.inr (Or.inl (lt_of_lt_of_le h g2))
  · exact Or.inr (Or.inr (Or.inl (lt_of_lt_of_le h g3)))
  · exact Or.inr (Or.inr (Or.inr (Or.inl (lt_of_lt_of_le h g4))))
  · exact Or.inr (Or.inr (Or.inr (Or.inr (Or.inl (lt_of_lt_of_le h k1)))))
  · exact Or.inr (Or.inr (Or.inr (Or.inr (Or.inr (Or.inl (lt_of_lt_of_le h k2))))))
  · exact Or.inr (Or.inr (Or.inr (Or.inr (Or.inr (Or.inr (Or.inl (lt_of_lt_of_le h k3)))))))
  · exact Or.inr (Or.inr (Or.inr (Or.inr (Or.inr (Or.inr (Or.inr (lt_of_lt_of_le h k4)))))))

/-! ## C3: behaviour on an empty corpus (total_length = 0) -/

/-- C3 counterexample: on a `total_length = 0` model, metric evaluation is
not prevented by any fail-fast guard: the accumulation loop runs (here it
accumulates a nonzero SFB weight) and the percentage step is reached, where
the division by zero raises.  This refutes the claim that no accumulation or
percentage division is performed on such a model. -/
theorem calculate_metrics_runs_on_zero_total :
    metricAccum layoutSfb [(('a', 'b'), 1)] ≠ (⟨0, 0, 0, 0⟩ : Accum) ∧
    calculate_metrics layoutSfb [(('a', 'b'), 1)] 0 =
      Except.error MetricError.divByZero := by
  constructor
  · have h : metricAccum layoutSfb [(('a', 'b'), 1)] =
        { sfb := 0 + 1, scissors := 0, lat_str := 0, wide_scissors := 0 } := by
      simp [metricAccum, metricStep, layoutSfb, List.lookup]
    rw [h]
    intro hcon
    have := congrArg Accum.sfb hcon
    norm_num at this
  · simp [calculate_metrics]

/-- C3 amended: there is no fail-fast rejection before metric evaluation;
`calculate_metrics` always runs its accumulation loop, and on
`total_length = 0` the percentage step raises an uncaught division-by-zero
error (the error is propagated, not swallowed). -/
theorem calculate_metrics_zero_total_raises (layout : List (Char × Pos))
    (bigrams : List ((Char × Char) × ℕ)) :
    calculate_metrics layout bigrams 0 = Except.error MetricError.divByZero := by
  simp [calculate_metrics]

/-! ## C9: the truncation step crashes when every front fits -/

/-- C9: when the offspring set is empty the combined pool has exactly P
genomes, every front fits, and the truncation loop's continuation test
indexes `fronts[front_index]` one past the last front: an `IndexError`
(modelled as `none`), not a population of size P. -/
theorem select_next_generation_index_error :
    select_next_generation [[defaultLayout]] 1 = none := rfl

/-! ## C10: swap mutation does not modify the parent genome -/

/-- C10: `mutate_layout` deep-copies the parent's positions dict into a
fresh store cell and mutates only the copy: after the call the parent's
positions mapping and scoring fields read back unchanged, and the fresh cell
holds the swapped copy. -/
theorem mutate_layout_heap_frame (store : Store) (parent : LayoutRef)
    (i j : ℕ) (engBigrams : List ((Char × Char) × ℕ)) (engTotal : ℕ)
    (finBigrams : List ((Char × Char) × ℕ)) (finTotal : ℕ)
    (h : parent.posAddr < store.length) :
    readLayout
        (mutate_layout_heap store parent i j engBigrams engTotal finBigrams finTotal).1
        parent =
      readLayout store parent ∧
    (mutate_layout_heap store parent i j engBigrams engTotal finBigrams finTotal).1.getD
        store.length [] =
      mutate_positions (store.getD parent.posAddr []) i j := by
  constructor
  · simp [readLayout, mutate_layout_heap, List.getElem?_append_left h]
  · simp [mutate_layout_heap, List.getD]

/-- C10 witness: the frame theorem applied to a concrete one-cell store. -/
theorem mutate_layout_heap_frame_witness :
    readLayout (mutate_layout_heap storeW parentW 0 1 [] 1 [] 1).1 parentW =
      readLayout storeW parentW ∧
    (mutate_layout_heap storeW parentW 0 1 [] 1 [] 1).1.getD storeW.length [] =
      mutate_positions (storeW.getD parentW.posAddr []) 0 1 :=
  mutate_layout_heap_frame storeW parentW 0 1 [] 1 [] 1 (by decide)

/-! ## C2: the weighted score sums three components per language, not four -/

/-- C2 counterexample: on the `{"ab": 1}` corpus and a scissor layout the
skip-bigram component is nonzero, and the computed `weighted_score` differs
from `0.8 * (sum of all four English components) + 0.2 * (sum of all four
Finnish components)`. -/
theorem weighted_score_not_sum_of_four :
    evaluate_layout layoutScissor bigramsAB 3 bigramsAB 3 = Except.ok layScissor ∧
    layScissor.weighted_score ≠
      8 / 10 * (layScissor.english_metrics.sfb + layScissor.english_metrics.scissors +
        layScissor.english_metrics.lat_stretch + layScissor.english_metrics.skip_bigrams) +
      2 / 10 * (layScissor.finnish_metrics.sfb + layScissor.finnish_metrics.scissors +
        layScissor.finnish_metrics.lat_stretch + layScissor.finnish_metrics.skip_bigrams) := by
  constructor
  · simp [evaluate_layout, calculate_metrics, metricAccum, metricStep,
      layoutScissor, bigramsAB, layScissor, List.lookup, Bind.bind, Except.bind, Functor.map, Except.map, pure, Except.pure]
    try norm_num
  · simp only [layScissor]
    norm_num

/-- C2 amended: every successfully evaluated genome's `weighted_score`
equals `0.8` times the sum of the English sfb, scissors and lat-stretch
components plus `0.2` times the sum of the Finnish sfb, scissors and
lat-stretch components; the skip-bigram components are not included. -/
theorem evaluate_layout_weighted_score (positions : List (Char × Pos))
    (engBigrams : List ((Char × Char) × ℕ)) (engTotal : ℕ)
    (finBigrams : List ((Char × Char) × ℕ)) (finTotal : ℕ) (lay : Layout)
    (h : evaluate_layout positions engBigrams engTotal finBigrams finTotal =
      Except.ok lay) :
    lay.weighted_score =
      8 / 10 * (lay.english_metrics.sfb + lay.english_metrics.scissors +
        lay.english_metrics.lat_stretch) +
      2 / 10 * (lay.finnish_metrics.sfb + lay.finnish_metrics.scissors +
        lay.finnish_metrics.lat_stretch) := by
  unfold evaluate_layout at h
  rcases he : calculate_metrics positions engBigrams engTotal with e | em <;>
    rw [he] at h
  · simp [Bind.bind, Except.bind, Functor.map, Except.map, pure, Except.pure] at h
  rcases hf : calculate_metrics positions finBigrams finTotal with e | fm <;>
    rw [hf] at h
  · simp [Bind.bind, Except.bind, Functor.map, Except.map, pure, Except.pure] at h
  simp only [Bind.bind, Except.bind, Functor.map, Except.map, pure, Except.pure, Except.ok.injEq] at h
  subst h
  rfl

/-- C2 amended witness: the three-component formula at the `{"ab": 1}`
corpus and the scissor layout. -/
theorem evaluate_layout_weighted_score_witness :
    layScissor.weighted_score =
      8 / 10 * (layScissor.english_metrics.sfb + layScissor.english_metrics.scissors +
        layScissor.english_metrics.lat_stretch) +
      2 / 10 * (layScissor.finnish_metrics.sfb + layScissor.finnish_metrics.scissors +
        layScissor.finnish_metrics.lat_stretch) :=
  evaluate_layout_weighted_score layoutScissor bigramsAB 3 bigramsAB 3 layScissor
    (by simp [evaluate_layout, calculate_metrics, metricAccum, metricStep,
        layoutScissor, bigramsAB, layScissor, List.lookup, Bind.bind, Except.bind, Functor.map, Except.map, pure, Except.pure]
        try norm_num)

/-! ## C1: the worked example on the corpus `{"ab": 1}` -/

set_option maxHeartbeats 1000000 in
/-- A bigram whose two keys sit on different fingers contributes nothing
when either key is outside the three main rows. -/
theorem metricStep_thumb_row (layout : List (Char × Pos)) (acc : Accum)
    (entry : (Char × Char) × ℕ) (q1 q2 : Pos)
    (h1 : layout.lookup entry.1.1 = some q1)
    (h2 : layout.lookup entry.1.2 = some q2)
    (hf : q1.finger ≠ q2.finger) (hrow : 2 < q1.row ∨ 2 < q2.row) :
    metricStep layout acc entry = acc := by
  simp only [metricStep, h1, h2]
  rw [if_neg (fun hc => hf hc.1), if_pos hf]
  have hr : ¬ (q1.row ≤ 2 ∧ q2.row ≤ 2) := by omega
  split_ifs <;> rfl

/-- A bigram whose two distinct keys share a finger adds its weight to the
SFB accumulator and nothing else. -/
theorem metricStep_sfb_case (layout : List (Char × Pos)) (acc : Accum)
    (entry : (Char × Char) × ℕ) (q1 q2 : Pos)
    (h1 : layout.lookup entry.1.1 = some q1)
    (h2 : layout.lookup entry.1.2 = some q2)
    (hf : q1.finger = q2.finger) (hne : entry.1.1 ≠ entry.1.2) :
    metricStep layout acc entry = { acc with sfb := acc.sfb + entry.2 } := by
  simp only [metricStep, h1, h2]
  rw [if_pos ⟨hf, hne⟩]

/-- C1: the corpus `{"ab": 1}` yields exactly the bigram table
`{" a": 1, "ab": 1, "b ": 1}` with `total_length = 3`, and on any layout
placing `a` and `b` on one shared finger at different rows and columns
(with the space key on its own thumb finger) the metric evaluator returns
SFB = 100/3 % and scissors = lateral stretch = skip-bigram = 0 %. -/
theorem bigram_model_worked_example (pa pb : Pos)
    (hf : pa.finger = pb.finger) (hrow : pa.row ≠ pb.row)
    (hcol : pa.col ≠ pb.col) (hth : pa.finger ≠ 6) :
    calculate_bigrams_from_words [(['a', 'b'], 1)] = (bigramsAB, 3) ∧
    calculate_metrics [(' ', ⟨3, 6, 6⟩), ('a', pa), ('b', pb)] bigramsAB 3 =
      Except.ok ⟨100 / 3, 0, 0, 0⟩ := by
  have l1 : List.lookup ' ' [(' ', (⟨3, 6, 6⟩ : Pos)), ('a', pa), ('b', pb)] =
      some ⟨3, 6, 6⟩ := rfl
  have l2 : List.lookup 'a' [(' ', (⟨3, 6, 6⟩ : Pos)), ('a', pa), ('b', pb)] =
      some pa := rfl
  have l3 : List.lookup 'b' [(' ', (⟨3, 6, 6⟩ : Pos)), ('a', pa), ('b', pb)] =
      some pb := rfl
  constructor
  · rfl
  · have e1 : metricStep [(' ', ⟨3, 6, 6⟩), ('a', pa), ('b', pb)]
        ⟨0, 0, 0, 0⟩ ((' ', 'a'), 1) = ⟨0, 0, 0, 0⟩ :=
      metricStep_thumb_row _ _ _ _ _ l1 l2 (fun hc => hth hc.symm) (Or.inl (by norm_num))
    have e2 : metricStep [(' ', ⟨3, 6, 6⟩), ('a', pa), ('b', pb)]
        ⟨0, 0, 0, 0⟩ (('a', 'b'), 1) = ⟨0 + 1, 0, 0, 0⟩ :=
      metricStep_sfb_case _ _ _ _ _ l2 l3 hf (by decide)
    have e3 : metricStep [(' ', ⟨3, 6, 6⟩), ('a', pa), ('b', pb)]
        ⟨0 + 1, 0, 0, 0⟩ (('b', ' '), 1) = ⟨0 + 1, 0, 0, 0⟩ :=
      metricStep_thumb_row _ _ _ _ _ l3 l1
        (by rw [← hf]; exact hth) (Or.inr (by norm_num))
    have hacc : metricAccum [(' ', ⟨3, 6, 6⟩), ('a', pa), ('b', pb)] bigramsAB =
        ⟨0 + 1, 0, 0, 0⟩ := by
      simp only [metricAccum, bigramsAB, List.foldl_cons, List.foldl_nil]
      rw [e1, e2, e3]
    simp only [calculate_metrics, hacc]
    norm_num

/-- C1 witness: keys `a` at (1,1,finger 1) and `b` at (2,2,finger 1). -/
theorem bigram_model_worked_example_witness :
    calculate_bigrams_from_words [(['a', 'b'], 1)] = (bigramsAB, 3) ∧
    calculate_metrics [(' ', ⟨3, 6, 6⟩), ('a', ⟨1, 1, 1⟩), ('b', ⟨2, 2, 1⟩)] bigramsAB 3 =
      Except.ok ⟨100 / 3, 0, 0, 0⟩ :=
  bigram_model_worked_example ⟨1, 1, 1⟩ ⟨2, 2, 1⟩ (by decide) (by decide)
    (by decide) (by decide)

/-! ## C4: permutation validity and anchor invariance -/

/-- Unfolding `List.lookup` at a non-matching head binding. -/
theorem lookup_cons_ne (c k : Char) (b : Pos) (rest : List (Char × Pos))
    (h : c ≠ k) : List.lookup c ((k, b) :: rest) = List.lookup c rest := by
  rw [List.lookup, beq_eq_false_iff_ne.2 h]

/-- Unfolding `List.lookup` at a matching head binding. -/
theorem lookup_cons_self (c : Char) (b : Pos) (rest : List (Char × Pos)) :
    List.lookup c ((c, b) :: rest) = some b := by
  simp [List.lookup]

/-- Assigning a fresh key appends the binding. -/
theorem dictSet_of_not_mem (m : List (Char × Pos)) (k : Char) (v : Pos)
    (h : k ∉ m.map Prod.fst) : dictSet m k v = m ++ [(k, v)] := by
  induction m with
  | nil => rfl
  | cons p rest ih =>
      obtain ⟨a, b⟩ := p
      simp only [List.map_cons, List.mem_cons, not_or] at h
      simp only [dictSet]
      rw [if_neg (fun hc => h.1 hc.symm), ih h.2, List.cons_append]

/-- Assigning one key leaves other lookups unchanged. -/
theorem dictSet_lookup_ne (m : List (Char × Pos)) (k : Char) (v : Pos)
    (c : Char) (hne : c ≠ k) : (dictSet m k v).lookup c = m.lookup c := by
  induction m with
  | nil =>
      show List.lookup c [(k, v)] = List.lookup c []
      rw [lookup_cons_ne c k v [] hne]
  | cons p rest ih =>
      obtain ⟨a, b⟩ := p
      by_cases hak : a = k
      · subst hak
        simp only [dictSet, if_true, eq_self_iff_true]
        rw [lookup_cons_ne c a v rest hne, lookup_cons_ne c a b rest hne]
      · simp only [dictSet, if_neg hak]
        by_cases hca : c = a
        · subst hca
          rw [lookup_cons_self, lookup_cons_self]
        · rw [lookup_cons_ne c a b _ hca, lookup_cons_ne c a b rest hca, ih]

/-- A key that can be looked up is among the dict's keys. -/
theorem mem_keys_of_lookup (m : List (Char × Pos)) (k : Char) (w : Pos)
    (h : m.lookup k = some w) : k ∈ m.map Prod.fst := by
  induction m with
  | nil => simp [List.lookup] at h
  | cons p rest ih =>
      obtain ⟨a, b⟩ := p
      by_cases hka : k = a
      · simp [hka]
      · rw [lookup_cons_ne k a b rest hka] at h
        simp only [List.map_cons, List.mem_cons]
        exact Or.inr (ih h)

/-- Reassigning an existing key keeps the key list unchanged. -/
theorem dictSet_map_fst_of_mem (m : List (Char × Pos)) (k : Char) (v : Pos)
    (h : k ∈ m.map Prod.fst) : (dictSet m k v).map Prod.fst = m.map Prod.fst := by
  induction m with
  | nil => simp at h
  | cons p rest ih =>
      obtain ⟨a, b⟩ := p
      by_cases hak : a = k
      · simp [dictSet, hak]
      · simp only [List.map_cons, List.mem_cons] at h
        rcases h with h | h
        · exact absurd h.symm hak
        · simp [dictSet, hak, ih h]

/-- Reassigning an existing key replaces exactly its value in the value
list. -/
theorem dictSet_snd_decomp (m : List (Char × Pos)) (k : Char) (v w : Pos)
    (h : m.lookup k = some w) :
    ∃ l1 l2, m.map Prod.snd = l1 ++ w :: l2 ∧
      (dictSet m k v).map Prod.snd = l1 ++ v :: l2 := by
  induction m with
  | nil => simp [List.lookup] at h
  | cons p rest ih =>
      obtain ⟨a, b⟩ := p
      by_cases hka : k = a
      · subst hka
        rw [lookup_cons_self] at h
        have hbw : b = w := Option.some.inj h
        refine ⟨[], rest.map Prod.snd, ?_, ?_⟩
        · simp [hbw]
        · simp [dictSet]
      · rw [lookup_cons_ne k a b rest hka] at h
        obtain ⟨l1, l2, hm, hd⟩ := ih h
        have hak : ¬ a = k := fun hc => hka hc.symm
        refine ⟨b :: l1, l2, ?_, ?_⟩
        · simp [hm]
        · simp only [dictSet, if_neg hak, List.map_cons, hd, List.cons_append]

/-- Swapping the values of two distinct present keys preserves the key list,
permutes the value list, and leaves all other lookups unchanged. -/
theorem dict_swap_spec (m : List (Char × Pos)) (k1 k2 : Char) (p1 p2 : Pos)
    (hne : k1 ≠ k2) (h1 : m.lookup k1 = some p1) (h2 : m.lookup k2 = some p2) :
    ((dictSet (dictSet m k1 p2) k2 p1).map Prod.fst = m.map Prod.fst) ∧
    ((dictSet (dictSet m k1 p2) k2 p1).map Prod.snd).Perm (m.map Prod.snd) ∧
    (∀ c, c ≠ k1 → c ≠ k2 → (dictSet (dictSet m k1 p2) k2 p1).lookup c = m.lookup c) := by
  have h1m : m.lookup k1 = some p1 := h1
  have hk1 : k1 ∈ m.map Prod.fst := mem_keys_of_lookup m k1 p1 h1
  have hm1keys : (dictSet m k1 p2).map Prod.fst = m.map Prod.fst :=
    dictSet_map_fst_of_mem m k1 p2 hk1
  have hm1l2 : (dictSet m k1 p2).lookup k2 = some p2 := by
    rw [dictSet_lookup_ne m k1 p2 k2 (Ne.symm hne)]; exact h2
  have hk2 : k2 ∈ (dictSet m k1 p2).map Prod.fst :=
    mem_keys_of_lookup _ k2 p2 hm1l2
  refine ⟨?_, ?_, ?_⟩
  · rw [dictSet_map_fst_of_mem _ k2 p1 hk2, hm1keys]
  · obtain ⟨a, b, hma, hmb⟩ := dictSet_snd_decomp m k1 p2 p1 h1
    obtain ⟨c, d, hmc, hmd⟩ := dictSet_snd_decomp (dictSet m k1 p2) k2 p1 p2 hm1l2
    have pa : (p2 :: (a ++ b)).Perm (p2 :: (c ++ d)) := by
      have hstep : (p2 :: (a ++ b)).Perm (a ++ p2 :: b) := List.perm_middle.symm
      rw [← hmb, hmc] at hstep
      exact hstep.trans List.perm_middle
    have habcd : (a ++ b).Perm (c ++ d) := pa.cons_inv
    have q1 : ((dictSet (dictSet m k1 p2) k2 p1).map Prod.snd).Perm (p1 :: (c ++ d)) := by
      rw [hmd]; exact List.perm_middle
    have q2 : (p1 :: (c ++ d)).Perm (p1 :: (a ++ b)) := habcd.symm.cons p1
    have q3 : (p1 :: (a ++ b)).Perm (m.map Prod.snd) := by
      rw [hma]; exact List.perm_middle.symm
    exact q1.trans (q2.trans q3)
  · intro c hc1 hc2
    rw [dictSet_lookup_ne _ k2 p1 c hc2, dictSet_lookup_ne m k1 p2 c hc1]

/-- Folding fresh assignments over a dict appends them in order. -/
theorem foldl_dictSet_eq_append (ps : List (Char × Pos)) :
    ∀ m : List (Char × Pos), (∀ p ∈ ps, p.1 ∉ m.map Prod.fst) →
      (ps.map Prod.fst).Nodup →
      ps.foldl (fun lay q => dictSet lay q.1 q.2) m = m ++ ps := by
  induction ps with
  | nil => intro m _ _; simp
  | cons p rest ih =>
      intro m hdis hnd
      rw [List.map_cons, List.nodup_cons] at hnd
      simp only [List.foldl_cons]
      rw [dictSet_of_not_mem m p.1 p.2 (hdis p (List.mem_cons_self p rest))]
      rw [ih (m ++ [(p.1, p.2)]) ?_ hnd.2]
      · simp
      · intro q hq
        simp only [List.map_append, List.mem_append, List.map_cons, not_or]
        refine ⟨hdis q (List.mem_cons_of_mem p hq), ?_⟩
        simp only [List.map_nil, List.mem_singleton]
        intro hc
        exact hnd.1 (hc ▸ List.mem_map_of_mem Prod.fst hq)

/-- The moveable letters never collide with the anchor keys. -/
theorem moveable_not_anchor :
    ∀ c ∈ moveable_letters, c ∉ base_layout.map Prod.fst := by decide

/-- Every anchor binding looks itself up in `base_layout`. -/
theorem base_layout_lookup : ∀ e ∈ base_layout, base_layout.lookup e.1 = some e.2 := by
  decide

/-- Lookup in an appended dict resolves in the left part when the key is
bound there. -/
theorem lookup_append_of_mem (l1 l2 : List (Char × Pos)) (k : Char)
    (h : k ∈ l1.map Prod.fst) : (l1 ++ l2).lookup k = l1.lookup k := by
  induction l1 with
  | nil => simp at h
  | cons p rest ih =>
      obtain ⟨a, b⟩ := p
      by_cases hka : k = a
      · simp [List.lookup, hka]
      · simp only [List.map_cons, List.mem_cons] at h
        rcases h with h | h
        · exact absurd h hka
        · simp [List.lookup, hka, ih h]

/-- C4: both layout constructors respect the genome invariants: random
initialisation (for any shuffles of the moveable letters and slots) and swap
mutation (for any sampled index pair) produce a layout whose keys are
exactly the full character set and whose values are exactly the full slot
set — a bijection, since both sets are duplicate-free — with every anchor
character still at its fixed base position. -/
theorem layout_invariants_preserved :
    full_chars.Nodup ∧ full_slots.Nodup ∧
    (∀ sl sp, sl.Perm moveable_letters → sp.Perm moveable_positions →
      LayoutInv (create_random_layout sl sp)) ∧
    (∀ positions i j, LayoutInv positions →
      LayoutInv (mutate_positions positions i j)) := by
  refine ⟨by decide, by decide, ?_, ?_⟩
  · intro sl sp hsl hsp
    have hlen : sl.length = sp.length := by
      rw [hsl.length_eq, hsp.length_eq]; decide
    have hkeys : (sl.zip sp).map Prod.fst = sl :=
      List.map_fst_zip sl sp (le_of_eq hlen)
    have hvals : (sl.zip sp).map Prod.snd = sp :=
      List.map_snd_zip sl sp (ge_of_eq hlen)
    have hnodup : sl.Nodup := hsl.nodup_iff.2 (by decide)
    have heq : create_random_layout sl sp = base_layout ++ sl.zip sp := by
      unfold create_random_layout
      refine foldl_dictSet_eq_append _ base_layout ?_ ?_
      · intro p hp
        have : p.1 ∈ moveable_letters :=
          hsl.subset (List.mem_zip hp).1
        exact moveable_not_anchor p.1 this
      · rw [hkeys]; exact hnodup
    refine ⟨?_, ?_, ?_⟩
    · rw [heq, List.map_append, hkeys]
      exact List.Perm.append_left _ hsl
    · rw [heq, List.map_append, hvals]
      exact List.Perm.append_left _ hsp
    · intro e he
      rw [heq, lookup_append_of_mem _ _ _ (List.mem_map_of_mem Prod.fst he)]
      exact base_layout_lookup e he
  · intro positions i j hinv
    obtain ⟨hkeys, hvals, hanch⟩ := hinv
    simp only [mutate_positions]
    split_ifs with hg
    case neg => exact ⟨hkeys, hvals, hanch⟩
    rcases hgi : (moveable_letters.filter fun c => (positions.lookup c).isSome).get? i with
      _ | c1
    · simp only [hgi]; exact ⟨hkeys, hvals, hanch⟩
    rcases hgj : (moveable_letters.filter fun c => (positions.lookup c).isSome).get? j with
      _ | c2
    · simp only [hgi, hgj]; exact ⟨hkeys, hvals, hanch⟩
    rcases hl1 : positions.lookup c1 with _ | q1
    · simp only [hgi, hgj, hl1]; exact ⟨hkeys, hvals, hanch⟩
    rcases hl2 : positions.lookup c2 with _ | q2
    · simp only [hgi, hgj, hl1, hl2]; exact ⟨hkeys, hvals, hanch⟩
    simp only [hgi, hgj, hl1, hl2]
    have hmcnd : (moveable_letters.filter
        fun c => (positions.lookup c).isSome).Nodup :=
      List.Nodup.filter _ (by decide)
    obtain ⟨hi, hgi2⟩ := List.get?_eq_some.1 hgi
    obtain ⟨hj, hgj2⟩ := List.get?_eq_some.1 hgj
    have hc12 : c1 ≠ c2 := by
      intro hc
      apply hg.2
      have := (hmcnd.get_inj_iff (i := ⟨i, hi⟩) (j := ⟨j, hj⟩)).1
        (by rw [hgi2, hgj2, hc])
      exact congrArg Fin.val this
    have hc1m : c1 ∈ moveable_letters :=
      (List.mem_filter.1 (hgi2 ▸ List.get_mem _ _ _)).1
    have hc2m : c2 ∈ moveable_letters :=
      (List.mem_filter.1 (hgj2 ▸ List.get_mem _ _ _)).1
    obtain ⟨hf, hs, hl⟩ := dict_swap_spec positions c1 c2 q1 q2 hc12 hl1 hl2
    refine ⟨hf ▸ hkeys, hs.trans hvals, ?_⟩
    · intro e he
      have hb : e.1 ∈ base_layout.map Prod.fst := List.mem_map_of_mem Prod.fst he
      have h1 : e.1 ≠ c1 := fun hc => moveable_not_anchor c1 hc1m (hc ▸ hb)
      have h2 : e.1 ≠ c2 := fun hc => moveable_not_anchor c2 hc2m (hc ▸ hb)
      rw [hl e.1 h1 h2]
      exact hanch e he

/-- C4 witness: the invariants hold for the identity shuffles, and are kept
by a concrete swap mutation of that layout. -/
theorem layout_invariants_preserved_witness :
    LayoutInv (create_random_layout moveable_letters moveable_positions) ∧
    LayoutInv (mutate_positions
      (create_random_layout moveable_letters moveable_positions) 0 1) :=
  ⟨layout_invariants_preserved.2.2.1 moveable_letters moveable_positions
      (List.Perm.refl _) (List.Perm.refl _),
   layout_invariants_preserved.2.2.2 _ 0 1
     (layout_invariants_preserved.2.2.1 moveable_letters moveable_positions
       (List.Perm.refl _) (List.Perm.refl _))⟩

/-! ## C7/C8: crowding distance -/

/-- The running fold of `min` only decreases its seed. -/
theorem foldl_min_le_seed (xs : List ℚ) : ∀ a : ℚ, xs.foldl min a ≤ a := by
  induction xs with
  | nil => intro a; exact le_refl a
  | cons x xs ih => intro a; exact le_trans (ih (min a x)) (min_le_left a x)

/-- The running fold of `min` is below every list element. -/
theorem foldl_min_le_mem (xs : List ℚ) :
    ∀ a : ℚ, ∀ x ∈ xs, xs.foldl min a ≤ x := by
  induction xs with
  | nil => intro a x hx; cases hx
  | cons y xs ih =>
      intro a x hx
      rcases List.mem_cons.1 hx with rfl | hx
      · exact le_trans (foldl_min_le_seed xs (min a x)) (min_le_right a x)
      · exact ih (min a y) x hx

/-- The running fold of `min` is attained by the seed or an element. -/
theorem foldl_min_attained (xs : List ℚ) :
    ∀ a : ℚ, xs.foldl min a = a ∨ xs.foldl min a ∈ xs := by
  induction xs with
  | nil => intro a; exact Or.inl rfl
  | cons y xs ih =>
      intro a
      rcases ih (min a y) with h | h
      · rcases min_cases a y with ⟨hm, -⟩ | ⟨hm, -⟩
        · exact Or.inl (by rw [List.foldl_cons, h, hm])
        · exact Or.inr (by rw [List.foldl_cons, h, hm]; exact List.mem_cons_self y xs)
      · exact Or.inr (List.mem_cons_of_mem y h)

/-- `listMin` is a lower bound of the list. -/
theorem listMin_le (l : List ℚ) (x : ℚ) (hx : x ∈ l) : listMin l ≤ x := by
  cases l with
  | nil => cases hx
  | cons a xs =>
      rcases List.mem_cons.1 hx with rfl | hx
      · exact foldl_min_le_seed xs x
      · exact foldl_min_le_mem xs a x hx

/-- `listMin` of a nonempty list is one of its elements. -/
theorem listMin_mem (l : List ℚ) (h : l ≠ []) : listMin l ∈ l := by
  cases l with
  | nil => cases h rfl
  | cons a xs =>
      rcases foldl_min_attained xs a with hm | hm
      · show xs.foldl min a ∈ a :: xs
        rw [hm]
        exact List.mem_cons_self a xs
      · exact List.mem_cons_of_mem a hm

/-- `listMin` is the least element. -/
theorem listMin_eq (l : List ℚ) (x : ℚ) (hx : x ∈ l) (h : ∀ y ∈ l, x ≤ y) :
    listMin l = x :=
  le_antisymm (listMin_le l x hx) (h _ (listMin_mem l (List.ne_nil_of_mem hx)))

/-- The running fold of `max` only increases its seed. -/
theorem le_foldl_max_seed (xs : List ℚ) : ∀ a : ℚ, a ≤ xs.foldl max a := by
  induction xs with
  | nil => intro a; exact le_refl a
  | cons x xs ih => intro a; exact le_trans (le_max_left a x) (ih (max a x))

/-- The running fold of `max` is above every list element. -/
theorem le_foldl_max_mem (xs : List ℚ) :
    ∀ a : ℚ, ∀ x ∈ xs, x ≤ xs.foldl max a := by
  induction xs with
  | nil => intro a x hx; cases hx
  | cons y xs ih =>
      intro a x hx
      rcases List.mem_cons.1 hx with rfl | hx
      · exact le_trans (le_max_right a x) (le_foldl_max_seed xs (max a x))
      · exact ih (max a y) x hx

/-- The running fold of `max` is attained by the seed or an element. -/
theorem foldl_max_attained (xs : List ℚ) :
    ∀ a : ℚ, xs.foldl max a = a ∨ xs.foldl max a ∈ xs := by
  induction xs with
  | nil => intro a; exact Or.inl rfl
  | cons y xs ih =>
      intro a
      rcases ih (max a y) with h | h
      · rcases max_cases a y with ⟨hm, -⟩ | ⟨hm, -⟩
        · exact Or.inl (by rw [List.foldl_cons, h, hm])
        · exact Or.inr (by rw [List.foldl_cons, h, hm]; exact List.mem_cons_self y xs)
      · exact Or.inr (List.mem_cons_of_mem y h)

/-- `listMax` is an upper bound of the list. -/
theorem le_listMax (l : List ℚ) (x : ℚ) (hx : x ∈ l) : x ≤ listMax l := by
  cases l with
  | nil => cases hx
  | cons a xs =>
      rcases List.mem_cons.1 hx with rfl | hx
      · exact le_foldl_max_seed xs x
      · exact le_foldl_max_mem xs a x hx

/-- `listMax` of a nonempty list is one of its elements. -/
theorem listMax_mem (l : List ℚ) (h : l ≠ []) : listMax l ∈ l := by
  cases l with
  | nil => cases h rfl
  | cons a xs =>
      rcases foldl_max_attained xs a with hm | hm
      · show xs.foldl max a ∈ a :: xs
        rw [hm]
        exact List.mem_cons_self a xs
      · exact List.mem_cons_of_mem a hm

/-- `listMax` is the greatest element. -/
theorem listMax_eq (l : List ℚ) (x : ℚ) (hx : x ∈ l) (h : ∀ y ∈ l, y ≤ x) :
    listMax l = x :=
  le_antisymm (h _ (listMax_mem l (List.ne_nil_of_mem hx))) (le_listMax l x hx)

/-- `listMin` only depends on the list up to permutation. -/
theorem listMin_perm {l l2 : List ℚ} (h : l.Perm l2) (hne : l ≠ []) :
    listMin l = listMin l2 := by
  have hne2 : l2 ≠ [] := by
    intro hc
    rw [hc] at h
    exact hne h.eq_nil
  refine le_antisymm ?_ ?_
  · exact listMin_le l _ (h.mem_iff.2 (listMin_mem l2 hne2))
  · exact listMin_le l2 _ (h.mem_iff.1 (listMin_mem l hne))

/-- `listMax` only depends on the list up to permutation. -/
theorem listMax_perm {l l2 : List ℚ} (h : l.Perm l2) (hne : l ≠ []) :
    listMax l = listMax l2 := by
  have hne2 : l2 ≠ [] := by
    intro hc
    rw [hc] at h
    exact hne h.eq_nil
  refine le_antisymm ?_ ?_
  · exact le_listMax l2 _ (h.mem_iff.1 (listMax_mem l hne))
  · exact le_listMax l _ (h.mem_iff.2 (listMax_mem l2 hne2))

/-- Each of the 8 objective accessors reads only the `core` of a layout. -/
theorem objectives_core_factor :
    ∀ obj ∈ objectives, ∀ a b : Layout, core a = core b → obj a = obj b := by
  intro obj hobj a b hc
  have he : a.english_metrics = b.english_metrics :=
    congrArg (fun t => t.2.1) hc
  have hf : a.finnish_metrics = b.finnish_metrics :=
    congrArg (fun t => t.2.2.1) hc
  simp only [objectives, List.mem_cons, List.not_mem_nil, or_false] at hobj
  rcases hobj with rfl | rfl | rfl | rfl | rfl | rfl | rfl | rfl <;>
    simp [he, hf]

/-- Pushing a layout through `mapIdx` with core-preserving, infinity-
preserving updates keeps a representative with the same core. -/
theorem mapIdx_core_forward (f : ℕ → Layout → Layout) (s : List Layout)
    (hf : ∀ i l, core (f i l) = core l ∧
      (l.crowding_distance = ⊤ → (f i l).crowding_distance = ⊤)) :
    ∀ l ∈ s, ∃ lx ∈ s.mapIdx f, core lx = core l ∧
      (l.crowding_distance = ⊤ → lx.crowding_distance = ⊤) := by
  intro l hl
  obtain ⟨i, hi, hgi⟩ := List.mem_iff_getElem.1 hl
  refine ⟨f i l, ?_, (hf i l).1, (hf i l).2⟩
  exact List.mem_mapIdx.2 ⟨i, hi, by rw [hgi]⟩

/-- The boundary-marking update of a crowding pass preserves cores and
infinite distances. -/
theorem crowding_mark_spec (n : ℕ) :
    ∀ (i : ℕ) (l : Layout),
      core (if i = 0 ∨ i = n - 1 then { l with crowding_distance := ⊤ } else l) =
        core l ∧
      (l.crowding_distance = ⊤ →
        (if i = 0 ∨ i = n - 1 then
          { l with crowding_distance := ⊤ } else l).crowding_distance = ⊤) := by
  intro i l
  split_ifs <;> exact ⟨rfl, fun h => by simp_all [core]⟩

/-- The interior-gap update of a crowding pass preserves cores and infinite
distances. -/
theorem crowding_add_spec (n : ℕ) (vals : List ℚ) (r : ℚ) :
    ∀ (i : ℕ) (l : Layout),
      core (if 1 ≤ i ∧ i < n - 1 then
          { l with crowding_distance := l.crowding_distance +
              (((vals.getD (i + 1) 0 - vals.getD (i - 1) 0) / r : ℚ) : WithTop ℚ) }
        else l) = core l ∧
      (l.crowding_distance = ⊤ →
        (if 1 ≤ i ∧ i < n - 1 then
          { l with crowding_distance := l.crowding_distance +
              (((vals.getD (i + 1) 0 - vals.getD (i - 1) 0) / r : ℚ) : WithTop ℚ) }
        else l).crowding_distance = ⊤) := by
  intro i l
  split_ifs
  · exact ⟨rfl, fun h => by simp [h, WithTop.top_add]⟩
  · exact ⟨rfl, fun h => h⟩

/-- One crowding pass keeps the front's length. -/
theorem crowding_step_length (front : List Layout) (obj : Layout → ℚ) :
    (crowding_step front obj).length = front.length := by
  simp only [crowding_step]
  split_ifs <;>
    simp [List.length_mapIdx, List.length_insertionSort]

/-- One crowding pass keeps, for every input layout, an output layout with
the same core whose distance is still infinite if it was. -/
theorem crowding_step_forward (front : List Layout) (obj : Layout → ℚ) :
    ∀ l ∈ front, ∃ lx ∈ crowding_step front obj, core lx = core l ∧
      (l.crowding_distance = ⊤ → lx.crowding_distance = ⊤) := by
  intro l hl
  have hls : l ∈ List.insertionSort (fun a b => obj a ≤ obj b) front :=
    (List.perm_insertionSort _ front).mem_iff.2 hl
  simp only [crowding_step]
  split_ifs with hrange
  · obtain ⟨lm, hlm, hcm, htm⟩ :=
      mapIdx_core_forward _ _ (crowding_mark_spec _) l hls
    obtain ⟨lx, hlx, hcx, htx⟩ :=
      mapIdx_core_forward _ _ (crowding_add_spec _ _ _) lm hlm
    exact ⟨lx, hlx, hcx.trans hcm, fun h => htx (htm h)⟩
  · obtain ⟨lm, hlm, hcm, htm⟩ :=
      mapIdx_core_forward _ _ (crowding_mark_spec _) l hls
    exact ⟨lm, hlm, hcm, htm⟩

/-- Mapping a core-determined accessor through `mapIdx` with core-preserving
updates gives the same value list. -/
theorem map_mapIdx_core (g : Layout → ℚ)
    (hg : ∀ a b : Layout, core a = core b → g a = g b) :
    ∀ (s : List Layout) (f : ℕ → Layout → Layout),
      (∀ i l, core (f i l) = core l) → (s.mapIdx f).map g = s.map g := by
  intro s
  induction s with
  | nil => intro f _; rfl
  | cons a s ih =>
      intro f hf
      rw [List.mapIdx_cons, List.map_cons, List.map_cons,
        hg _ _ (hf 0 a), ih _ (fun i l => hf (i + 1) l)]

/-- One crowding pass permutes the value list of any core-determined
accessor. -/
theorem crowding_step_map_perm (front : List Layout) (obj g : Layout → ℚ)
    (hg : ∀ a b : Layout, core a = core b → g a = g b) :
    ((crowding_step front obj).map g).Perm (front.map g) := by
  have hperm : ((List.insertionSort (fun a b => obj a ≤ obj b) front).map g).Perm
      (front.map g) := (List.perm_insertionSort _ front).map g
  simp only [crowding_step]
  split_ifs with hrange
  · rw [map_mapIdx_core g hg _ _ (fun i l => (crowding_add_spec _ _ _ i l).1),
      map_mapIdx_core g hg _ _ (fun i l => (crowding_mark_spec _ i l).1)]
    exact hperm
  · rw [map_mapIdx_core g hg _ _ (fun i l => (crowding_mark_spec _ i l).1)]
    exact hperm

/-- An element read off by `getElem?` is a member. -/
theorem mem_of_getElem_some (l : List Layout) (n : ℕ) (x : Layout)
    (h : l[n]? = some x) : x ∈ l := by
  obtain ⟨hlt, hx⟩ := List.getElem?_eq_some.1 h
  exact hx ▸ List.getElem_mem hlt

/-- One crowding pass on a front of at least 3 members leaves a genome with
the minimal objective value and one with the maximal objective value at
infinite crowding distance. -/
theorem crowding_step_boundary (front : List Layout) (obj : Layout → ℚ)
    (hcf : ∀ a b : Layout, core a = core b → obj a = obj b)
    (hlen : 3 ≤ front.length) :
    (∃ l ∈ crowding_step front obj,
      obj l = listMin (front.map obj) ∧ l.crowding_distance = ⊤) ∧
    (∃ l ∈ crowding_step front obj,
      obj l = listMax (front.map obj) ∧ l.crowding_distance = ⊤) := by
  haveI hTot : IsTotal Layout (fun a b => obj a ≤ obj b) :=
    ⟨fun a b => le_total _ _⟩
  haveI hTrans : IsTrans Layout (fun a b => obj a ≤ obj b) :=
    ⟨fun a b c h1 h2 => le_trans h1 h2⟩
  set s := List.insertionSort (fun a b => obj a ≤ obj b) front with hs
  have hsp : s.Perm front := List.perm_insertionSort _ front
  have hslen : s.length = front.length := hsp.length_eq
  have hsorted : List.Sorted (fun a b => obj a ≤ obj b) s := by
    rw [hs]; exact List.sorted_insertionSort _ front
  have h0 : 0 < s.length := by omega
  have hn1 : s.length - 1 < s.length := by omega
  have hminval : obj (s.get ⟨0, h0⟩) = listMin (front.map obj) := by
    refine (listMin_eq (front.map obj) (obj (s.get ⟨0, h0⟩)) ?_ ?_).symm
    · exact List.mem_map_of_mem obj (hsp.mem_iff.1 (List.get_mem s 0 h0))
    · intro y hy
      obtain ⟨z, hz, rfl⟩ := List.mem_map.1 hy
      obtain ⟨k, hk, hzk⟩ := List.mem_iff_getElem.1 (hsp.mem_iff.2 hz)
      rcases Nat.eq_zero_or_pos k with rfl | hkpos
      · rw [← hzk]
        exact le_of_eq (by rw [List.get_eq_getElem])
      · have hrel := hsorted.rel_get_of_lt
          (a := ⟨0, h0⟩) (b := ⟨k, hk⟩) (Fin.mk_lt_mk.2 hkpos)
        rw [← hzk]
        simpa [List.get_eq_getElem] using hrel
  have hmaxval : obj (s.get ⟨s.length - 1, hn1⟩) = listMax (front.map obj) := by
    refine (listMax_eq (front.map obj) (obj (s.get ⟨s.length - 1, hn1⟩)) ?_ ?_).symm
    · exact List.mem_map_of_mem obj (hsp.mem_iff.1 (List.get_mem s _ hn1))
    · intro y hy
      obtain ⟨z, hz, rfl⟩ := List.mem_map.1 hy
      obtain ⟨k, hk, hzk⟩ := List.mem_iff_getElem.1 (hsp.mem_iff.2 hz)
      rcases Nat.lt_or_ge k (s.length - 1) with hklt | hkge
      · have hrel := hsorted.rel_get_of_lt
          (a := ⟨k, hk⟩) (b := ⟨s.length - 1, hn1⟩) (Fin.mk_lt_mk.2 hklt)
        rw [← hzk]
        simpa [List.get_eq_getElem] using hrel
      · have hkeq : k = s.length - 1 := by omega
        subst hkeq
        rw [← hzk]
        exact le_of_eq (by rw [List.get_eq_getElem])
  have hout0 : (crowding_step front obj)[0]? =
      some { s.get ⟨0, h0⟩ with crowding_distance := ⊤ } := by
    simp only [crowding_step, ← hs]
    split_ifs with hrange
    · rw [List.getElem?_mapIdx, List.getElem?_mapIdx, List.getElem?_eq_getElem h0]
      simp [List.get_eq_getElem]
    · rw [List.getElem?_mapIdx, List.getElem?_eq_getElem h0]
      simp [List.get_eq_getElem]
  have hout1 : (crowding_step front obj)[s.length - 1]? =
      some { s.get ⟨s.length - 1, hn1⟩ with crowding_distance := ⊤ } := by
    simp only [crowding_step, ← hs]
    split_ifs with hrange
    · rw [List.getElem?_mapIdx, List.getElem?_mapIdx, List.getElem?_eq_getElem hn1]
      simp [List.get_eq_getElem, List.length_mapIdx]
    · rw [List.getElem?_mapIdx, List.getElem?_eq_getElem hn1]
      simp [List.get_eq_getElem]
  constructor
  · refine ⟨{ s.get ⟨0, h0⟩ with crowding_distance := ⊤ },
      mem_of_getElem_some _ _ _ hout0, ?_, rfl⟩
    have hoe : obj { s.get ⟨0, h0⟩ with crowding_distance := (⊤ : WithTop ℚ) } =
        obj (s.get ⟨0, h0⟩) := hcf _ _ rfl
    rw [hoe]
    exact hminval
  · refine ⟨{ s.get ⟨s.length - 1, hn1⟩ with crowding_distance := ⊤ },
      mem_of_getElem_some _ _ _ hout1, ?_, rfl⟩
    have hoe : obj { s.get ⟨s.length - 1, hn1⟩ with crowding_distance := (⊤ : WithTop ℚ) } =
        obj (s.get ⟨s.length - 1, hn1⟩) := hcf _ _ rfl
    rw [hoe]
    exact hmaxval

/-- Folding crowding passes keeps the front's length. -/
theorem foldl_crowding_length (objs : List (Layout → ℚ)) :
    ∀ state : List Layout, (objs.foldl crowding_step state).length = state.length := by
  induction objs with
  | nil => intro state; rfl
  | cons o rest ih =>
      intro state
      rw [List.foldl_cons, ih, crowding_step_length]

/-- Folding crowding passes keeps, for every input layout, an output layout
with the same core whose distance is still infinite if it was. -/
theorem foldl_crowding_forward (objs : List (Layout → ℚ)) :
    ∀ state : List Layout, ∀ l ∈ state, ∃ lx ∈ objs.foldl crowding_step state,
      core lx = core l ∧ (l.crowding_distance = ⊤ → lx.crowding_distance = ⊤) := by
  induction objs with
  | nil => intro state l hl; exact ⟨l, hl, rfl, id⟩
  | cons o rest ih =>
      intro state l hl
      obtain ⟨lm, hlm, hcm, htm⟩ := crowding_step_forward state o l hl
      obtain ⟨lx, hlx, hcx, htx⟩ := ih (crowding_step state o) lm hlm
      exact ⟨lx, by rwa [List.foldl_cons], hcx.trans hcm, fun h => htx (htm h)⟩

/-- Over a fold of crowding passes, every processed objective retains
minimal- and maximal-valued genomes at infinite distance. -/
theorem foldl_crowding_boundary :
    ∀ objs : List (Layout → ℚ),
      (∀ o ∈ objs, ∀ a b : Layout, core a = core b → o a = o b) →
      ∀ state : List Layout, 3 ≤ state.length → ∀ obj ∈ objs,
        (∃ l ∈ objs.foldl crowding_step state,
          obj l = listMin (state.map obj) ∧ l.crowding_distance = ⊤) ∧
        (∃ l ∈ objs.foldl crowding_step state,
          obj l = listMax (state.map obj) ∧ l.crowding_distance = ⊤) := by
  intro objs
  induction objs with
  | nil => intro _ state _ obj hobj; cases hobj
  | cons o rest ih =>
      intro hobjs state hlen obj hobj
      rw [List.foldl_cons]
      rcases List.mem_cons.1 hobj with rfl | hmem
      · have hocf := hobjs obj (List.mem_cons_self obj rest)
        obtain ⟨⟨lmin, hm1, hv1, ht1⟩, ⟨lmax, hm2, hv2, ht2⟩⟩ :=
          crowding_step_boundary state obj hocf hlen
        constructor
        · obtain ⟨lx, hlx, hcx, htx⟩ := foldl_crowding_forward rest _ lmin hm1
          exact ⟨lx, hlx, by rw [hocf lx lmin hcx]; exact hv1, htx ht1⟩
        · obtain ⟨lx, hlx, hcx, htx⟩ := foldl_crowding_forward rest _ lmax hm2
          exact ⟨lx, hlx, by rw [hocf lx lmax hcx]; exact hv2, htx ht2⟩
      · have hlen2 : 3 ≤ (crowding_step state o).length := by
          rw [crowding_step_length]; exact hlen
        obtain ⟨h1, h2⟩ :=
          ih (fun o2 h2 => hobjs o2 (List.mem_cons_of_mem o h2))
            (crowding_step state o) hlen2 obj hmem
        have hperm := crowding_step_map_perm state o obj (hobjs obj hobj)
        have hne : (crowding_step state o).map obj ≠ [] := by
          intro hc
          have hlc := congrArg List.length hc
          rw [List.length_map, crowding_step_length] at hlc
          simp only [List.length_nil] at hlc
          omega
        rw [listMin_perm hperm hne] at h1
        rw [listMax_perm hperm hne] at h2
        exact ⟨h1, h2⟩

/-- C7: after the crowding computation, a front of at most 2 members has
every crowding distance infinite, and on a larger front every objective's
minimal- and maximal-valued genomes have infinite crowding distance. -/
theorem crowding_distance_boundary (front : List Layout) (obj : Layout → ℚ)
    (hobj : obj ∈ objectives) :
    (front.length ≤ 2 →
      ∀ l ∈ calculate_crowding_distance front, l.crowding_distance = ⊤) ∧
    (2 < front.length →
      (∃ l ∈ calculate_crowding_distance front,
        obj l = listMin (front.map obj) ∧ l.crowding_distance = ⊤) ∧
      (∃ l ∈ calculate_crowding_distance front,
        obj l = listMax (front.map obj) ∧ l.crowding_distance = ⊤)) := by
  constructor
  · intro hlen l hl
    unfold calculate_crowding_distance at hl
    rw [if_pos hlen] at hl
    obtain ⟨x, hx, rfl⟩ := List.mem_map.1 hl
    rfl
  · intro hlen
    unfold calculate_crowding_distance
    rw [if_neg (by omega)]
    have hslen : (front.map
        (fun l => { l with crowding_distance := (0 : WithTop ℚ) })).length =
        front.length := by
      rw [List.length_map]
    have hmap : (front.map
        (fun l => { l with crowding_distance := (0 : WithTop ℚ) })).map obj =
        front.map obj := by
      rw [List.map_map]
      exact List.map_congr_left
        (fun a ha => objectives_core_factor obj hobj _ _ rfl)
    have hres := foldl_crowding_boundary objectives objectives_core_factor
      (front.map (fun l => { l with crowding_distance := (0 : WithTop ℚ) }))
      (by omega) obj hobj
    rw [hmap] at hres
    exact hres

/-- C7 witness: the boundary property on a concrete front of three genomes
with pairwise distinct objective values, for the English SFB objective. -/
theorem crowding_distance_boundary_witness :
    ∃ l ∈ calculate_crowding_distance frontDistinct,
      (fun l : Layout => l.english_metrics.sfb) l =
        listMin (frontDistinct.map (fun l : Layout => l.english_metrics.sfb)) ∧
      l.crowding_distance = ⊤ :=
  (((crowding_distance_boundary frontDistinct _
    (List.mem_cons_self _ _)).2 (by decide)).1)

/-- C8 counterexample: a zero-range objective is not skipped entirely: on a
front of 3 genomes whose English SFB values are all equal (and crowding
distances all 0), the English-SFB pass still changes two genomes' crowding
distances to infinity. -/
theorem crowding_zero_range_still_marks :
    2 < frontZeroRange.length ∧
    listMax (frontZeroRange.map (fun l : Layout => l.english_metrics.sfb)) =
      listMin (frontZeroRange.map (fun l : Layout => l.english_metrics.sfb)) ∧
    (crowding_step frontZeroRange
        (fun l : Layout => l.english_metrics.sfb)).map Layout.crowding_distance ≠
      frontZeroRange.map Layout.crowding_distance := by
  refine ⟨by decide, by simp [frontZeroRange, mkLay, listMax, listMin], ?_⟩
  simp [crowding_step, List.insertionSort, List.orderedInsert, frontZeroRange,
    mkLay, listMax, listMin, List.mapIdx_cons, Layout.crowding_distance]

/-- C8 amended: a zero-range objective contributes no interior gap to any
genome's crowding distance, but it is not a complete no-op: its pass still
stable-sorts the front (leaving the order unchanged, as all key values are
equal) and still sets the first and last genomes' crowding distances to
infinity. -/
theorem crowding_step_zero_range (front : List Layout) (obj : Layout → ℚ)
    (hzero : listMax (front.map obj) = listMin (front.map obj)) :
    crowding_step front obj =
      front.mapIdx (fun i l => if i = 0 ∨ i = front.length - 1 then
        { l with crowding_distance := ⊤ } else l) := by
  have hall : ∀ x ∈ front.map obj, x = listMin (front.map obj) := fun x hx =>
    le_antisymm (hzero ▸ le_listMax _ x hx) (listMin_le _ x hx)
  have hpair : List.Sorted (fun a b => obj a ≤ obj b) front := by
    refine List.pairwise_of_forall_mem_list ?_
    intro a ha b hb
    rw [hall (obj a) (List.mem_map_of_mem obj ha),
      hall (obj b) (List.mem_map_of_mem obj hb)]
  simp only [crowding_step, List.Sorted.insertionSort_eq hpair]
  rw [hzero, sub_self, if_neg (lt_irrefl 0)]

/-- C8 amended witness: the zero-range pass on the concrete front equals
boundary marking. -/
theorem crowding_step_zero_range_witness :
    crowding_step frontZeroRange (fun l : Layout => l.english_metrics.sfb) =
      frontZeroRange.mapIdx (fun i l => if i = 0 ∨ i = frontZeroRange.length - 1 then
        { l with crowding_distance := ⊤ } else l) :=
  crowding_step_zero_range frontZeroRange _
    (by simp [frontZeroRange, mkLay, listMax, listMin])

/-! ## C5/C6: the fast non-dominated sort -/

/-- `getD` after `set` at the written index. -/
theorem getD_set_self (l : List ℤ) (i : ℕ) (v : ℤ) (h : i < l.length) :
    (l.set i v).getD i 0 = v := by
  simp [List.getD_eq_getElem?_getD, List.getElem?_set_self, h]

/-- `getD` after `set` at a different index. -/
theorem getD_set_ne (l : List ℤ) (i k : ℕ) (v : ℤ) (h : k ≠ i) :
    (l.set i v).getD k 0 = l.getD k 0 := by
  simp [List.getD_eq_getElem?_getD, List.getElem?_set_ne (Ne.symm h)]

/-- `getD` beyond the end of the list. -/
theorem getD_of_le_length (l : List ℤ) (k : ℕ) (h : l.length ≤ k) :
    l.getD k 0 = 0 := by
  rw [List.getD_eq_getElem?_getD, List.getElem?_eq_none h]
  rfl

/-- Complete characterisation of a run of decrement steps: the final counts
drop by the decrement multiplicities, and an index lands in the collected
list exactly when its count passes through zero. -/
theorem decRun_spec (js : List ℕ) :
    ∀ (counts : List ℤ) (acc : List ℕ),
      (∀ j ∈ js, j < counts.length) →
      ((js.foldl decStep (counts, acc)).1.length = counts.length) ∧
      (∀ k : ℕ, (js.foldl decStep (counts, acc)).1.getD k 0 =
        counts.getD k 0 - (js.count k : ℤ)) ∧
      (∀ k : ℕ, (js.foldl decStep (counts, acc)).2.count k =
        acc.count k +
          (if 1 ≤ counts.getD k 0 ∧ counts.getD k 0 ≤ (js.count k : ℤ)
            then 1 else 0)) := by
  induction js with
  | nil =>
      intro counts acc _
      refine ⟨rfl, fun k => by simp, fun k => ?_⟩
      rw [if_neg (by intro hc; simp at hc; omega)]
      simp
  | cons j js ih =>
      intro counts acc hjs
      have hj : j < counts.length := hjs j (List.mem_cons_self j js)
      rw [List.foldl_cons]
      have hstep : decStep (counts, acc) j =
          (counts.set j (counts.getD j 0 - 1),
           if counts.getD j 0 - 1 = 0 then acc ++ [j] else acc) := by
        simp only [decStep, getD_set_self counts j _ hj]
        split_ifs <;> rfl
      rw [hstep]
      have hlen2 : (counts.set j (counts.getD j 0 - 1)).length = counts.length := by
        simp
      obtain ⟨ih1, ih2, ih3⟩ := ih (counts.set j (counts.getD j 0 - 1))
        (if counts.getD j 0 - 1 = 0 then acc ++ [j] else acc)
        (fun i hi => by rw [hlen2]; exact hjs i (List.mem_cons_of_mem j hi))
      refine ⟨ih1.trans hlen2, fun k => ?_, fun k => ?_⟩
      · rw [ih2 k]
        by_cases hk : k = j
        · subst hk
          rw [getD_set_self counts k _ hj]
          have hcnt : ((k :: js).count k : ℤ) = (js.count k : ℤ) + 1 := by
            simp [List.count_cons]
          rw [hcnt]
          omega
        · rw [getD_set_ne counts j k _ hk]
          have hjk : ¬ j = k := fun hc => hk hc.symm
          have hcnt : ((j :: js).count k : ℤ) = (js.count k : ℤ) := by
            simp [List.count_cons, hjk]
          rw [hcnt]
      · rw [ih3 k]
        by_cases hk : k = j
        · subst hk
          rw [getD_set_self counts k _ hj]
          have hcnt : ((k :: js).count k : ℤ) = (js.count k : ℤ) + 1 := by
            simp [List.count_cons]
          by_cases hz : counts.getD k 0 - 1 = 0
          · rw [if_pos hz]
            have h1 : (acc ++ [k]).count k = acc.count k + 1 := by
              rw [List.count_append]
              simp
            rw [h1]
            have h2 : (if 1 ≤ counts.getD k 0 - 1 ∧
                counts.getD k 0 - 1 ≤ (js.count k : ℤ) then 1 else 0) = 0 :=
              if_neg (by intro hc; omega)
            rw [h2]
            have h3 : (if 1 ≤ counts.getD k 0 ∧
                counts.getD k 0 ≤ ((k :: js).count k : ℤ) then 1 else 0) = 1 :=
              if_pos ⟨by omega, by rw [hcnt]; omega⟩
            rw [h3]
          · rw [if_neg hz]
            by_cases hcond : 1 ≤ counts.getD k 0 - 1 ∧
                counts.getD k 0 - 1 ≤ (js.count k : ℤ)
            · have h3 : (if 1 ≤ counts.getD k 0 ∧
                  counts.getD k 0 ≤ ((k :: js).count k : ℤ) then 1 else 0) = 1 :=
                if_pos ⟨by omega, by rw [hcnt]; omega⟩
              rw [if_pos hcond, h3]
            · have h3 : (if 1 ≤ counts.getD k 0 ∧
                  counts.getD k 0 ≤ ((k :: js).count k : ℤ) then 1 else 0) = 0 := by
                refine if_neg ?_
                intro hc
                rw [hcnt] at hc
                exact hcond ⟨by omega, by omega⟩
              rw [if_neg hcond, h3]
        · rw [getD_set_ne counts j k _ hk]
          have hjk : ¬ j = k := fun hc => hk hc.symm
          have hacc : (if counts.getD j 0 - 1 = 0 then acc ++ [j] else acc).count k =
              acc.count k := by
            split_ifs
            · rw [List.count_append]
              simp [List.count_cons, hjk]
            · rfl
          rw [hacc]
          have hcnt2 : ((j :: js).count k : ℤ) = (js.count k : ℤ) := by
            simp [List.count_cons, hjk]
          rw [hcnt2]

/-- The nested decrement loops of `processFront` flatten into one run of
`decStep` over the concatenated dominated-solution lists. -/
theorem processFront_eq (pop : List Layout) (counts : List ℤ) (front : List ℕ) :
    processFront pop counts front =
      (front.flatMap (dominated_solutions pop)).foldl decStep (counts, []) := by
  unfold processFront
  generalize (counts, ([] : List ℕ)) = st
  induction front generalizing st with
  | nil => rfl
  | cons i front ih =>
      rw [List.flatMap_cons, List.foldl_append, List.foldl_cons, ih]

/-- Every decremented index is a population index. -/
theorem flat_mem_lt (pop : List Layout) (front : List ℕ) :
    ∀ j ∈ front.flatMap (dominated_solutions pop), j < pop.length := by
  intro j hj
  obtain ⟨i, -, hjd⟩ := List.mem_flatMap.1 hj
  exact List.mem_range.1 (List.mem_filter.1 hjd).1

/-- How often an index is decremented: once per front member dominating it. -/
theorem flat_count (pop : List Layout) (front : List ℕ) (k : ℕ)
    (hk : k < pop.length) :
    (front.flatMap (dominated_solutions pop)).count k =
      (front.filter (fun i => domB pop i k)).length := by
  induction front with
  | nil => rfl
  | cons i front ih =>
      rw [List.flatMap_cons, List.count_append, ih]
      have hone : (dominated_solutions pop i).count k =
          if domB pop i k then 1 else 0 := by
        by_cases hd : domB pop i k
        · rw [if_pos hd]
          unfold dominated_solutions
          rw [List.count_filter hd,
            List.count_eq_one_of_mem (List.nodup_range _) (List.mem_range.2 hk)]
        · rw [if_neg hd]
          refine List.count_eq_zero.2 ?_
          intro hc
          exact hd ((List.mem_filter.1 hc).2)
      rw [hone, List.filter_cons]
      by_cases hd : domB pop i k <;> simp [hd] <;> omega

/-- Splitting a filter count along a second Boolean test. -/
theorem length_filter_split (l : List ℕ) (p q : ℕ → Bool) :
    (l.filter p).length =
      (l.filter (fun i => p i && q i)).length +
      (l.filter (fun i => p i && !q i)).length := by
  induction l with
  | nil => rfl
  | cons a l ih =>
      rw [List.filter_cons, List.filter_cons, List.filter_cons]
      by_cases hp : p a
      · by_cases hq : q a <;> simp [hp, hq] <;> omega
      · simp [hp, ih]

/-- The unassigned dominator count splits into dominators inside the current
front and dominators outside the enlarged assigned set. -/
theorem residual_split (pop : List Layout) (A : Finset ℕ) (front : List ℕ)
    (hnd : front.Nodup) (hlt : ∀ j ∈ front, j < pop.length)
    (hdisj : ∀ j ∈ front, j ∉ A) (k : ℕ) :
    residual pop A k =
      (front.filter (fun i => domB pop i k)).length +
      residual pop (A ∪ front.toFinset) k := by
  unfold residual
  rw [length_filter_split (List.range pop.length)
    (fun i => domB pop i k && decide (i ∉ A)) (fun i => decide (i ∈ front))]
  congr 1
  · have hnd1 : ((List.range pop.length).filter
        (fun i => (domB pop i k && decide (i ∉ A)) && decide (i ∈ front))).Nodup :=
      (List.nodup_range _).filter _
    have hnd2 : (front.filter (fun i => domB pop i k)).Nodup := hnd.filter _
    have hset : ((List.range pop.length).filter
        (fun i => (domB pop i k && decide (i ∉ A)) && decide (i ∈ front))).toFinset =
        (front.filter (fun i => domB pop i k)).toFinset := by
      ext x
      simp only [List.mem_toFinset, List.mem_filter, List.mem_range,
        Bool.and_eq_true, decide_eq_true_eq]
      constructor
      · rintro ⟨-, ⟨⟨hd, -⟩, hf⟩⟩
        exact ⟨hf, hd⟩
      · rintro ⟨hf, hd⟩
        exact ⟨hlt x hf, ⟨⟨hd, hdisj x hf⟩, hf⟩⟩
    rw [← List.toFinset_card_of_nodup hnd1, ← List.toFinset_card_of_nodup hnd2,
      hset]
  · refine congrArg List.length (List.filter_congr ?_)
    intro i _
    by_cases h1 : domB pop i k <;> by_cases h2 : i ∈ A <;>
      by_cases h3 : i ∈ front <;>
      simp [h1, h2, h3, Finset.mem_union, List.mem_toFinset]

/-- Peeling one front preserves the sorting invariant, with the peeled front
joining the assigned set. -/
theorem processFront_spec (pop : List Layout) (A : Finset ℕ) (counts : List ℤ)
    (front : List ℕ) (hinv : SortInv pop A counts front) :
    SortInv pop (A ∪ front.toFinset) (processFront pop counts front).1
      (processFront pop counts front).2 := by
  obtain ⟨hlen, hnd, hlt, hdisjA, hsub, hfrontdom, hAdom, hcounts, hpos⟩ := hinv
  rw [processFront_eq]
  obtain ⟨r1, r2, r3⟩ := decRun_spec (front.flatMap (dominated_solutions pop))
    counts []
    (fun j hj => by rw [hlen]; exact flat_mem_lt pop front j hj)
  have hnext_count : ∀ k : ℕ,
      ((front.flatMap (dominated_solutions pop)).foldl decStep (counts, [])).2.count k =
        if 1 ≤ counts.getD k 0 ∧
            counts.getD k 0 ≤ ((front.flatMap (dominated_solutions pop)).count k : ℤ)
          then 1 else 0 := by
    intro k
    have := r3 k
    simpa using this
  have hcntA : ∀ k ∈ A, (front.flatMap (dominated_solutions pop)).count k = 0 := by
    intro k hkA
    have hkn : k < pop.length := List.mem_range.1 (hsub hkA)
    rw [flat_count pop front k hkn]
    rw [List.length_eq_zero, List.filter_eq_nil_iff]
    intro i hi hdom
    exact hdisjA i hi (hAdom k hkA i (hlt i hi) hdom)
  have hcntF : ∀ k ∈ front, (front.flatMap (dominated_solutions pop)).count k = 0 := by
    intro k hkF
    rw [flat_count pop front k (hlt k hkF)]
    rw [List.length_eq_zero, List.filter_eq_nil_iff]
    intro i hi hdom
    exact hdisjA i hi (hfrontdom k hkF i (hlt i hi) hdom)
  have hcnt_big : ∀ k, pop.length ≤ k →
      (front.flatMap (dominated_solutions pop)).count k = 0 := by
    intro k hk
    exact List.count_eq_zero.2 (fun hc => by
      have := flat_mem_lt pop front k hc
      omega)
  have hnotmemA : ∀ k ∈ A,
      k ∉ ((front.flatMap (dominated_solutions pop)).foldl decStep (counts, [])).2 := by
    intro k hkA
    refine List.count_eq_zero.1 ?_
    rw [hnext_count k, hcntA k hkA, if_neg (by intro hc; omega)]
  have hnotmemF : ∀ k ∈ front,
      k ∉ ((front.flatMap (dominated_solutions pop)).foldl decStep (counts, [])).2 := by
    intro k hkF
    refine List.count_eq_zero.1 ?_
    rw [hnext_count k, hcntF k hkF, if_neg (by intro hc; omega)]
  have hnotmem_big : ∀ k, pop.length ≤ k →
      k ∉ ((front.flatMap (dominated_solutions pop)).foldl decStep (counts, [])).2 := by
    intro k hk
    refine List.count_eq_zero.1 ?_
    rw [hnext_count k, hcnt_big k hk, if_neg (by intro hc; omega)]
  have hmem_iff : ∀ k, k < pop.length → k ∉ A → k ∉ front →
      (k ∈ ((front.flatMap (dominated_solutions pop)).foldl decStep (counts, [])).2 ↔
        residual pop (A ∪ front.toFinset) k = 0) := by
    intro k hkn hkA hkF
    have hc := hcounts k hkn hkA hkF
    have hp := hpos k hkn hkA hkF
    have hsplitk := residual_split pop A front hnd hlt hdisjA k
    have hflat : (front.flatMap (dominated_solutions pop)).count k =
        (front.filter (fun i => domB pop i k)).length := flat_count pop front k hkn
    constructor
    · intro hmem
      have hcnt1 : ((front.flatMap (dominated_solutions pop)).foldl
          decStep (counts, [])).2.count k ≠ 0 := by
        rw [ne_eq, List.count_eq_zero]
        exact fun hc2 => hc2 hmem
      rw [hnext_count k] at hcnt1
      by_cases hcond : 1 ≤ counts.getD k 0 ∧
          counts.getD k 0 ≤ ((front.flatMap (dominated_solutions pop)).count k : ℤ)
      · rw [hc] at hcond
        rw [hflat] at hcond
        omega
      · rw [if_neg hcond] at hcnt1
        exact absurd rfl hcnt1
    · intro hres
      have hcond : 1 ≤ counts.getD k 0 ∧
          counts.getD k 0 ≤ ((front.flatMap (dominated_solutions pop)).count k : ℤ) := by
        rw [hc, hflat]
        omega
      have : ((front.flatMap (dominated_solutions pop)).foldl
          decStep (counts, [])).2.count k = 1 := by
        rw [hnext_count k, if_pos hcond]
      have hne : ((front.flatMap (dominated_solutions pop)).foldl
          decStep (counts, [])).2.count k ≠ 0 := by omega
      rw [ne_eq, List.count_eq_zero] at hne
      exact not_not.1 hne
  have hsubF : front.toFinset ⊆ Finset.range pop.length := by
    intro x hx
    exact Finset.mem_range.2 (hlt x (List.mem_toFinset.1 hx))
  have hnext_lt : ∀ j ∈ ((front.flatMap (dominated_solutions pop)).foldl
      decStep (counts, [])).2, j < pop.length := by
    intro j hj
    by_contra hc
    exact hnotmem_big j (by omega) hj
  have hnext_notA : ∀ j ∈ ((front.flatMap (dominated_solutions pop)).foldl
      decStep (counts, [])).2, j ∉ A ∪ front.toFinset := by
    intro j hj hc
    rcases Finset.mem_union.1 hc with hc | hc
    · exact hnotmemA j hc hj
    · exact hnotmemF j (List.mem_toFinset.1 hc) hj
  refine ⟨r1.trans hlen, ?_, hnext_lt, hnext_notA, Finset.union_subset hsub hsubF,
    ?_, ?_, ?_, ?_⟩
  · rw [List.nodup_iff_count_le_one]
    intro k
    rw [hnext_count k]
    split_ifs <;> omega
  · -- dominators of next-front members are all assigned now
    intro j hj i hi hdom
    have hjn := hnext_lt j hj
    have hjA : j ∉ A := fun hc => hnotmemA j hc hj
    have hjF : j ∉ front := fun hc => hnotmemF j hc hj
    have hres := (hmem_iff j hjn hjA hjF).1 hj
    by_contra hiA
    have hfilter : i ∈ (List.range pop.length).filter
        (fun x => domB pop x j && decide (x ∉ A ∪ front.toFinset)) := by
      rw [List.mem_filter]
      exact ⟨List.mem_range.2 hi, by simp [hdom, hiA]⟩
    unfold residual at hres
    rw [List.length_eq_zero] at hres
    rw [hres] at hfilter
    cases hfilter
  · -- the enlarged assigned set is dominator-closed
    intro j hj i hi hdom
    rcases Finset.mem_union.1 hj with hj | hj
    · exact Finset.mem_union_left _ (hAdom j hj i hi hdom)
    · exact Finset.mem_union_left _
        (hfrontdom j (List.mem_toFinset.1 hj) i hi hdom)
  · -- counts are the residual dominator counts
    intro j hjn hjA2 hjF2
    have hjA : j ∉ A := fun hc => hjA2 (Finset.mem_union_left _ hc)
    have hjF : j ∉ front := fun hc =>
      hjA2 (Finset.mem_union_right _ (List.mem_toFinset.2 hc))
    rw [r2 j, hcounts j hjn hjA hjF, flat_count pop front j hjn]
    have hsplitj := residual_split pop A front hnd hlt hdisjA j
    omega
  · -- unassigned indices still have an unassigned dominator
    intro j hjn hjA2 hjF2
    have hjA : j ∉ A := fun hc => hjA2 (Finset.mem_union_left _ hc)
    have hjF : j ∉ front := fun hc =>
      hjA2 (Finset.mem_union_right _ (List.mem_toFinset.2 hc))
    have := (hmem_iff j hjn hjA hjF).2
    by_contra hc
    exact hjF2 (this (by omega))

/-- No nonempty index set is closed under "has a dominator inside":
domination is irreflexive and transitive. -/
theorem no_dominator_cycle (pop : List Layout) :
    ∀ (n : ℕ) (U : Finset ℕ), U.card ≤ n →
      (∀ j ∈ U, ∃ i ∈ U, domB pop i j = true) → U = ∅ := by
  intro n
  induction n with
  | zero =>
      intro U hcard _
      exact Finset.card_eq_zero.1 (le_antisymm hcard (Nat.zero_le _))
  | succ n ih =>
      intro U hcard hdom
      by_contra hne
      obtain ⟨j, hj⟩ := Finset.nonempty_iff_ne_empty.2 hne
      obtain ⟨i, hiU, hij⟩ := hdom j hj
      have hiV : i ∈ U.filter (fun x => domB pop x j = true) :=
        Finset.mem_filter.2 ⟨hiU, hij⟩
      have hjV : j ∉ U.filter (fun x => domB pop x j = true) := by
        intro hc
        have hirr := (Finset.mem_filter.1 hc).2
        unfold domB at hirr
        rw [dominates_irrefl] at hirr
        cases hirr
      have hVU : U.filter (fun x => domB pop x j = true) ⊆ U :=
        Finset.filter_subset _ _
      have hVcard : (U.filter (fun x => domB pop x j = true)).card ≤ n := by
        have hlt : (U.filter (fun x => domB pop x j = true)).card < U.card :=
          Finset.card_lt_card
            ((Finset.ssubset_iff_of_subset hVU).2 ⟨j, hj, hjV⟩)
        omega
      have hVdom : ∀ y ∈ U.filter (fun x => domB pop x j = true),
          ∃ x ∈ U.filter (fun x => domB pop x j = true), domB pop x y = true := by
        intro y hy
        obtain ⟨hyU, hyj⟩ := Finset.mem_filter.1 hy
        obtain ⟨x, hxU, hxy⟩ := hdom y hyU
        exact ⟨x, Finset.mem_filter.2 ⟨hxU, dominates_trans hxy hyj⟩, hxy⟩
      have hVempty := ih (U.filter (fun x => domB pop x j = true)) hVcard hVdom
      rw [hVempty] at hiV
      exact Finset.not_mem_empty i hiV

/-- The initial `domination_count` entry of an in-range index. -/
theorem init_counts_getD (pop : List Layout) (j : ℕ) (hj : j < pop.length) :
    (init_counts pop).getD j 0 =
      (((List.range pop.length).filter (fun i => domB pop i j)).length : ℤ) := by
  unfold init_counts
  rw [List.getD_eq_getElem?_getD, List.getElem?_map, List.getElem?_range hj]
  rfl

/-- With nothing assigned, the residual count is the full dominator count. -/
theorem residual_empty (pop : List Layout) (j : ℕ) :
    residual pop ∅ j =
      ((List.range pop.length).filter (fun i => domB pop i j)).length := by
  unfold residual
  exact congrArg List.length (List.filter_congr (fun i _ => by simp))

/-- The sorting invariant holds at the start of the peeling loop. -/
theorem init_SortInv (pop : List Layout) :
    SortInv pop ∅ (init_counts pop)
      ((List.range pop.length).filter
        (fun i => (init_counts pop).getD i 0 = 0)) := by
  have hmem0 : ∀ j, j ∈ (List.range pop.length).filter
      (fun i => (init_counts pop).getD i 0 = 0) ↔
      j < pop.length ∧ (init_counts pop).getD j 0 = 0 := by
    intro j
    rw [List.mem_filter, List.mem_range, decide_eq_true_eq]
  refine ⟨by simp [init_counts], (List.nodup_range _).filter _,
    fun j hj => ((hmem0 j).1 hj).1, fun j _ => Finset.not_mem_empty j,
    Finset.empty_subset _, ?_, fun j hj => absurd hj (Finset.not_mem_empty j),
    ?_, ?_⟩
  · intro j hj i hi hdom
    exfalso
    obtain ⟨hjn, hjz⟩ := (hmem0 j).1 hj
    rw [init_counts_getD pop j hjn] at hjz
    have hlen0 : ((List.range pop.length).filter
        (fun i => domB pop i j)).length = 0 := by omega
    rw [List.length_eq_zero] at hlen0
    have hifilter : i ∈ (List.range pop.length).filter (fun i => domB pop i j) :=
      List.mem_filter.2 ⟨List.mem_range.2 hi, hdom⟩
    rw [hlen0] at hifilter
    cases hifilter
  · intro j hjn _ hjF
    rw [init_counts_getD pop j hjn, residual_empty]
  · intro j hjn _ hjF
    have hne : ¬ (init_counts pop).getD j 0 = 0 := by
      intro hc
      exact hjF ((hmem0 j).2 ⟨hjn, hc⟩)
    rw [init_counts_getD pop j hjn] at hne
    rw [residual_empty]
    omega

/-- The front-peeling loop is correct: fronts contain no dominating pairs,
and together they assign every population index exactly once. -/
theorem sortLoop_spec (pop : List Layout) :
    ∀ (fuel : ℕ) (A : Finset ℕ) (counts : List ℤ) (front : List ℕ),
      SortInv pop A counts front →
      pop.length + 1 ≤ fuel + A.card →
      (∀ F ∈ sortLoop pop fuel counts front, ∀ i ∈ F, ∀ j ∈ F,
        domB pop i j = false) ∧
      ((sortLoop pop fuel counts front).map List.length).sum =
        pop.length - A.card ∧
      (∀ k, k ∈ A →
        ((sortLoop pop fuel counts front).map (fun F => F.count k)).sum = 0) ∧
      (∀ k, k < pop.length → k ∉ A →
        ((sortLoop pop fuel counts front).map (fun F => F.count k)).sum = 1) ∧
      (∀ k, pop.length ≤ k →
        ((sortLoop pop fuel counts front).map (fun F => F.count k)).sum = 0) := by
  intro fuel
  induction fuel with
  | zero =>
      intro A counts front hinv hfuel
      obtain ⟨-, -, -, -, hsub, -⟩ := hinv
      have hcard : A.card ≤ pop.length := by
        have := Finset.card_le_card hsub
        simpa [Finset.card_range] using this
      omega
  | succ fuel ih =>
      intro A counts front hinv hfuel
      by_cases hfe : front.isEmpty
      · have hfront : front = [] := List.isEmpty_iff.1 hfe
        have hAall : A = Finset.range pop.length := by
          obtain ⟨hlen, hnd, hlt, hdisjA, hsub, hfrontdom, hAdom, hcounts, hpos⟩ :=
            hinv
          have hU : Finset.range pop.length \ A = ∅ := by
            refine no_dominator_cycle pop (Finset.range pop.length \ A).card _
              le_rfl ?_
            intro j hj
            obtain ⟨hjr, hjA⟩ := Finset.mem_sdiff.1 hj
            have hjn := Finset.mem_range.1 hjr
            have h1 := hpos j hjn hjA
              (by rw [hfront]; exact List.not_mem_nil j)
            unfold residual at h1
            have h2 : (List.range pop.length).filter
                (fun i => domB pop i j && decide (i ∉ A)) ≠ [] := by
              intro hc
              rw [hc] at h1
              simp at h1
            obtain ⟨i, hi⟩ := List.exists_mem_of_ne_nil _ h2
            obtain ⟨hir, hip⟩ := List.mem_filter.1 hi
            rw [Bool.and_eq_true, decide_eq_true_eq] at hip
            exact ⟨i, Finset.mem_sdiff.2
              ⟨Finset.mem_range.2 (List.mem_range.1 hir), hip.2⟩, hip.1⟩
          exact Finset.Subset.antisymm hsub
            (Finset.sdiff_eq_empty_iff_subset.1 hU)
        rw [show sortLoop pop (fuel + 1) counts front = [] by
          simp only [sortLoop, if_pos hfe]]
        refine ⟨fun F hF => absurd hF (List.not_mem_nil F), ?_, ?_, ?_, ?_⟩
        · simp [hAall, Finset.card_range]
        · intro k _; rfl
        · intro k hkn hkA
          exact absurd (hAall ▸ Finset.mem_range.2 hkn) hkA
        · intro k _; rfl
      · have hspec := processFront_spec pop A counts front hinv
        obtain ⟨hlen, hnd, hlt, hdisjA, hsub, hfrontdom, hAdom, hcounts, hpos⟩ :=
          hinv
        have hfne : front ≠ [] := fun hc => by
          rw [hc] at hfe; exact hfe rfl
        have hdisjAF : Disjoint A front.toFinset := by
          rw [Finset.disjoint_left]
          intro a haA haF
          exact hdisjA a (List.mem_toFinset.1 haF) haA
        have hcardA2 : (A ∪ front.toFinset).card = A.card + front.length := by
          rw [Finset.card_union_of_disjoint hdisjAF,
            List.toFinset_card_of_nodup hnd]
        have hfl : 1 ≤ front.length := List.length_pos.2 hfne
        have hA2sub : A ∪ front.toFinset ⊆ Finset.range pop.length := by
          refine Finset.union_subset hsub ?_
          intro x hx
          exact Finset.mem_range.2 (hlt x (List.mem_toFinset.1 hx))
        have hA2card : (A ∪ front.toFinset).card ≤ pop.length := by
          have := Finset.card_le_card hA2sub
          simpa [Finset.card_range] using this
        obtain ⟨ih1, ih2, ih3, ih4, ih5⟩ :=
          ih (A ∪ front.toFinset) (processFront pop counts front).1
            (processFront pop counts front).2 hspec (by omega)
        rw [show sortLoop pop (fuel + 1) counts front =
            front :: sortLoop pop fuel (processFront pop counts front).1
              (processFront pop counts front).2 by
          simp only [sortLoop, if_neg hfe]]
        refine ⟨?_, ?_, ?_, ?_, ?_⟩
        · intro F hF i hi j hj
          rcases List.mem_cons.1 hF with rfl | hF
          · by_contra hc
            have hct : domB pop i j = true := by
              cases hdb : domB pop i j
              · exact absurd hdb hc
              · rfl
            exact hdisjA i hi (hfrontdom j hj i (hlt i hi) hct)
          · exact ih1 F hF i hi j hj
        · rw [List.map_cons, List.sum_cons, ih2, hcardA2]
          omega
        · intro k hkA
          rw [List.map_cons, List.sum_cons,
            ih3 k (Finset.mem_union_left _ hkA),
            List.count_eq_zero.2 (fun hc => hdisjA k hc hkA)]
        · intro k hkn hkA
          by_cases hkF : k ∈ front
          · rw [List.map_cons, List.sum_cons,
              List.count_eq_one_of_mem hnd hkF,
              ih3 k (Finset.mem_union_right _ (List.mem_toFinset.2 hkF))]
          · rw [List.map_cons, List.sum_cons,
              List.count_eq_zero.2 hkF,
              ih4 k hkn (fun hc => by
                rcases Finset.mem_union.1 hc with hc | hc
                · exact hkA hc
                · exact hkF (List.mem_toFinset.1 hc))]
        · intro k hk
          rw [List.map_cons, List.sum_cons, ih5 k hk,
            List.count_eq_zero.2 (fun hc => by have := hlt k hc; omega)]

/-- C5: no genome in a front returned by the fast non-dominated sort
dominates another genome of the same front. -/
theorem same_front_non_domination (pop : List Layout) (F : List ℕ) (i j : ℕ)
    (hF : F ∈ fast_non_dominated_sort pop) (hi : i ∈ F) (hj : j ∈ F) :
    (pop.getD i defaultLayout).dominates (pop.getD j defaultLayout) = false := by
  have hspec := sortLoop_spec pop (pop.length + 1) ∅ (init_counts pop)
    ((List.range pop.length).filter (fun i => (init_counts pop).getD i 0 = 0))
    (init_SortInv pop) (by simp)
  exact hspec.1 F hF i hi j hj

/-- C5 witness: the non-domination theorem applied to the singleton
population, whose sort returns the single front `[0]`. -/
theorem same_front_non_domination_witness :
    (([defaultLayout] : List Layout).getD 0 defaultLayout).dominates
      (([defaultLayout] : List Layout).getD 0 defaultLayout) = false :=
  same_front_non_domination [defaultLayout] [0] 0 0 (by decide) (by decide)
    (by decide)

/-- C6: the fronts returned by one run of the fast non-dominated sort
partition the population: their sizes sum to the population size and every
population index appears in exactly one front. -/
theorem front_partition (pop : List Layout) :
    ((fast_non_dominated_sort pop).map List.length).sum = pop.length ∧
    ∀ k : ℕ, ((fast_non_dominated_sort pop).map (fun F => F.count k)).sum =
      if k < pop.length then 1 else 0 := by
  have hspec := sortLoop_spec pop (pop.length + 1) ∅ (init_counts pop)
    ((List.range pop.length).filter (fun i => (init_counts pop).getD i 0 = 0))
    (init_SortInv pop) (by simp)
  refine ⟨?_, ?_⟩
  · have h := hspec.2.1
    rw [Finset.card_empty, Nat.sub_zero] at h
    exact h
  intro k
  by_cases hk : k < pop.length
  · rw [if_pos hk]
    exact hspec.2.2.2.1 k hk (Finset.not_mem_empty k)
  · rw [if_neg hk]
    exact hspec.2.2.2.2 k (by omega)

end Pareto
